import Mathlib

/-!
# edgo: a verification model of the journal watcher

A shallow embedding of the Go packages `edgo/watch` (shutdown token, directory
watcher, incremental tailer) and `edgo` (the `EliteWatcher` orchestrator and
the journal line helpers), followed by theorems about them.

Conventions of the embedding:

* a Go `string` or `[]byte` is a `GoString`, the list of its bytes, one
  character per byte;
* a Go `error` result is an `Option GoError` (`none` is `nil`);
* a run-time panic is the `Except.error` branch of `Except Panic`;
* receivers and captured variables are passed and returned explicitly.
-/

namespace Edgo

/-- A Go string or byte slice, as the list of its bytes. -/
abbrev GoString := List Char

/-- The Go error values that the modelled code can produce or pass on. -/
inductive GoError where
  /-- The value `io.EOF`. -/
  | EOF
  /-- The value `io.ErrNoProgress`. -/
  | ErrNoProgress
  /-- The value `os.ErrInvalid`, returned by methods of a nil `*os.File`. -/
  | ErrInvalid
  /-- The value `watch.ErrTailShutdown`. -/
  | ErrTailShutdown
  /-- The value `edgo.ErrEWShutdown`. -/
  | ErrEWShutdown
  /-- Any error reported by the operating system or a library. -/
  | os (msg : GoString)
  deriving DecidableEq, Repr

/-- The run-time panics that the modelled code can raise. -/
inductive Panic where
  /-- A nil pointer dereference. -/
  | nilDeref
  /-- A slice expression whose bounds are out of range. -/
  | sliceBounds
  /-- An index expression out of range. -/
  | indexRange
  /-- A failed type assertion `x.(T)`. -/
  | typeAssert
  /-- The call `close` on a closed channel. -/
  | closeClosed
  deriving DecidableEq, Repr

deriving instance DecidableEq for Except

/-! ## Standard library: `strings` and `path/filepath` (Unix) -/

namespace strings

/-- The function `strings.ToLower`, on ASCII letters. Go also maps the upper
case letters outside ASCII; the file names treated here are ASCII. -/
def ToLower (s : GoString) : GoString := s.map Char.toLower

/-- The function `strings.Compare`: -1, 0 or +1 by the lexicographic order of
the bytes. -/
def Compare : GoString → GoString → Int
  | [], [] => 0
  | [], _ :: _ => -1
  | _ :: _, [] => 1
  | a :: as, b :: bs =>
    if a.toNat < b.toNat then -1 else if b.toNat < a.toNat then 1 else Compare as bs

/-- The function `strings.Split` for a separator of one byte. -/
def Split (sep : Char) : GoString → List GoString
  | [] => [[]]
  | c :: cs =>
    if c = sep then [] :: Split sep cs
    else match Split sep cs with
      | [] => [[c]]
      | x :: xs => (c :: x) :: xs

/-- The function `strings.Join` for a separator of one byte. -/
def Join (sep : Char) : List GoString → GoString
  | [] => []
  | [x] => x
  | x :: y :: rest => x ++ sep :: Join sep (y :: rest)

end strings

namespace sort

/-- Inserts `x` before the first element that compares greater. -/
def insertSorted (x : GoString) : List GoString → List GoString
  | [] => [x]
  | y :: ys => if strings.Compare x y ≤ 0 then x :: y :: ys else y :: insertSorted x ys

/-- The function `sort.Strings`: the given strings in increasing order of
`strings.Compare`. Strings that compare equal are equal, so every sorting
algorithm returns this list. -/
def Strings : List GoString → List GoString
  | [] => []
  | x :: xs => insertSorted x (Strings xs)

end sort

namespace filepath

/-- The path separator of Unix. -/
def Separator : Char := '/'

/-- The function `filepath.IsAbs`. -/
def IsAbs (path : GoString) : Bool := path.head? = some Separator

/-- One step of the scan of `filepath.Clean` over the elements of a path:
`out` holds, innermost first, the elements kept so far. -/
def cleanStep (rooted : Bool) (out : List GoString) (elem : GoString) : List GoString :=
  if elem = [] ∨ elem = ['.'] then out
  else if elem = ['.', '.'] then
    match out with
    | [] => if rooted then [] else [elem]
    | top :: below => if top = ['.', '.'] then elem :: top :: below else below
  else elem :: out

/-- An element that `Clean` keeps as a name: not empty, not `.`, not `..`,
without separator. -/
def IsName (x : GoString) : Prop :=
  x ≠ [] ∧ x ≠ ['.'] ∧ x ≠ ['.', '.'] ∧ Separator ∉ x

/-- The function `filepath.Clean`: a single separator between elements, no
`.` element, no inner `..` element with the element before it, no `..` at the
start of a rooted path, and `.` for an empty result. -/
def Clean (path : GoString) : GoString :=
  let rooted := IsAbs path
  let kept := ((strings.Split Separator path).foldl (cleanStep rooted) []).reverse
  let body := strings.Join Separator kept
  if rooted then Separator :: body
  else if body = [] then ['.'] else body

/-- The function `filepath.Base`: the last element of the path, trailing
separators removed first. -/
def Base (path : GoString) : GoString :=
  if path = [] then ['.']
  else
    let stripped := (path.reverse.dropWhile (· = Separator)).reverse
    let last := (stripped.reverse.takeWhile (· ≠ Separator)).reverse
    if last = [] then [Separator] else last

/-- The function `filepath.Dir`: the cleaned path up to the last separator. -/
def Dir (path : GoString) : GoString :=
  Clean (path.reverse.dropWhile (· ≠ Separator)).reverse

/-- The function `filepath.Join`: empty elements before the first non-empty
one are ignored, the rest is joined with the separator and cleaned. -/
def Join (elem : List GoString) : GoString :=
  match elem.dropWhile (· = []) with
  | [] => []
  | rest => Clean (strings.Join Separator rest)

/-- The function `filepath.Abs`; `wd` is the result of `os.Getwd`. -/
def Abs (wd : Except GoError GoString) (path : GoString) : GoString × Option GoError :=
  if IsAbs path then (Clean path, none)
  else match wd with
    | .error e => ([], some e)
    | .ok d => (Join [d, path], none)

end filepath

/-! ## Standard library: `bufio.Reader` over an `*os.File` -/

namespace bufio

/-- The default size of the buffer of `bufio.NewReader`. -/
def defaultBufSize : Nat := 4096

/-- A `bufio.Reader`: the bytes read from the file and not yet handed out
(`b.buf[b.r:b.w]`), and the capacity of the buffer (`len(b.buf)`). -/
structure Reader where
  buf : GoString
  size : Nat
  deriving DecidableEq, Repr

/-- The function `bufio.NewReader`. -/
def NewReader : Reader := { buf := [], size := defaultBufSize }

/-- The method `Reader.Reset`: drops every buffered byte. -/
def Reader.Reset (b : Reader) : Reader := { b with buf := [] }

/-- The method `Reader.Buffered`. -/
def Reader.Buffered (b : Reader) : Nat := b.buf.length

/-- Splits `s` after the first occurrence of `delim`; `none` when `delim` does
not occur (`bytes.IndexByte` returning `-1`). -/
def splitAfter (delim : Char) : GoString → Option (GoString × GoString)
  | [] => none
  | c :: cs =>
    if c = delim then some ([c], cs)
    else match splitAfter delim cs with
      | some (l, r) => some (c :: l, r)
      | none => none

/-- The outcome of `Reader.ReadString`: the string, the error, the offset of
the underlying file after the reads it made, and the reader. -/
structure ReadResult where
  line : GoString
  err : Option GoError
  pos : Nat
  reader : Reader
  deriving DecidableEq, Repr

/-- The loop of `Reader.ReadString` (`collectFragments` around `ReadSlice`
around `fill`) over a regular file holding `content`, the file offset being
`pos`. `acc` holds the full buffers collected so far. Each round either finds
the delimiter in the buffer, or hands over a full buffer, or reads
`min (free space) (bytes left in the file)` further bytes; a read of zero
bytes is the end of the file. -/
def Reader.readStringLoop (content : GoString) (delim : Char) (size : Nat) :
    Nat → GoString → Nat → GoString → ReadResult
  | 0, acc, pos, buf =>
    { line := acc ++ buf, err := some .ErrNoProgress, pos := pos,
      reader := { buf := [], size := size } }
  | fuel + 1, acc, pos, buf =>
    match splitAfter delim buf with
    | some (line, rest) =>
      { line := acc ++ line, err := none, pos := pos, reader := { buf := rest, size := size } }
    | none =>
      if size ≤ buf.length then
        Reader.readStringLoop content delim size fuel (acc ++ buf) pos []
      else
        let n := min (size - buf.length) (content.length - pos)
        if n = 0 then
          { line := acc ++ buf, err := some .EOF, pos := pos,
            reader := { buf := [], size := size } }
        else
          Reader.readStringLoop content delim size fuel acc (pos + n)
            (buf ++ (content.drop pos).take n)

/-- The method `Reader.ReadString` on a reader whose underlying file holds
`content` and stands at offset `pos`. The number of rounds is bounded by twice
the number of bytes left in the file plus three. -/
def Reader.ReadString (b : Reader) (content : GoString) (pos : Nat) (delim : Char) :
    ReadResult :=
  Reader.readStringLoop content delim b.size (2 * (content.length - pos) + 3) [] pos b.buf

end bufio

/-! ## The notification library `fsnotify` -/

namespace fsnotify

/-- The type `fsnotify.Op`: a set of the operations `Create`, `Write`,
`Remove`, `Rename` and `Chmod`, which the library holds in the bits 1, 2, 4, 8
and 16 of a `uint32`. -/
structure Op where
  Create : Bool
  Write : Bool
  Remove : Bool
  Rename : Bool
  Chmod : Bool
  deriving DecidableEq, Repr

/-- The `uint32` behind an `fsnotify.Op`, which the conversion `Op(evt.Op)`
of `RunLoop` keeps. -/
def Op.bits (o : Op) : Nat :=
  (if o.Create then 1 else 0) ||| (if o.Write then 2 else 0) ||| (if o.Remove then 4 else 0) |||
    (if o.Rename then 8 else 0) ||| (if o.Chmod then 16 else 0)

/-- The operation `fsnotify.Write` alone. -/
def Write : Op :=
  { Create := false, Write := true, Remove := false, Rename := false, Chmod := false }

end fsnotify

/-! ## Package `watch`: the shutdown token (`shutdown.go`) -/

namespace watch

/-- A Go channel of `struct{}`: the number of values queued and whether the
channel is closed. -/
structure Chan where
  queued : Nat
  cap : Nat
  closed : Bool
  deriving DecidableEq, Repr

/-- Whether a receive from the channel can proceed at once: a value is
queued or the channel is closed. -/
def Chan.recvReady (c : Chan) : Bool := decide (0 < c.queued) || c.closed

/-- The channel after a receive that proceeds. -/
def Chan.recv (c : Chan) : Chan := { c with queued := c.queued - 1 }

/-- The builtin `close`: closing a closed channel panics. -/
def Chan.close (c : Chan) : Except Panic Chan :=
  if c.closed then .error .closeClosed else .ok { c with closed := true }

/-- The struct `shutdownImpl`, with the reasons written to the log so far. -/
structure shutdownImpl where
  done : Chan
  logged : List GoError
  deriving DecidableEq, Repr

/-- The function `NewShutdown`: `make(chan struct{}, 1)`. -/
def NewShutdown : shutdownImpl :=
  { done := { queued := 0, cap := 1, closed := false }, logged := [] }

/-- The method `shutdownImpl.Dying`. -/
def shutdownImpl.Dying (s : shutdownImpl) : Chan := s.done

/-- The method `shutdownImpl.Kill`: `select` with a receive from `done` and a
`default` that logs the reason and closes `done`. -/
def shutdownImpl.Kill (s : shutdownImpl) (reason : GoError) : Except Panic shutdownImpl :=
  if s.done.recvReady then .ok { s with done := s.done.recv }
  else
    match s.done.close with
    | .error p => .error p
    | .ok c => .ok { done := c, logged := s.logged ++ [reason] }

/-- A sequence of `Kill` calls, in order. -/
def shutdownImpl.killAll (s : shutdownImpl) : List GoError → Except Panic shutdownImpl
  | [] => .ok s
  | r :: rs =>
    match s.Kill r with
    | .error p => .error p
    | .ok s' => s'.killAll rs

/-! ## Package `watch`: the directory watcher (`watcher.go`) -/

/-- The type `Op`, a `uint32` used as a set of bits. -/
abbrev Op := Nat

/-- The constant `Create`. -/
def Create : Op := 1
/-- The constant `Write`. -/
def Write : Op := 2
/-- The constant `Remove`. -/
def Remove : Op := 4
/-- The constant `Rename`. -/
def Rename : Op := 8
/-- The constant `Chmod`. -/
def Chmod : Op := 16
/-- The constant `DirChild`. -/
def DirChild : Op := 32

/-- The struct `Event`. -/
structure Event where
  Name : GoString
  Op : Op
  deriving DecidableEq, Repr

/-- The struct `Watcher`: the keys of `watchset`, whether `mux` is held, and
the names sent so far on the channels `add` and `remove`, oldest first; each
such send is one request to the notification layer of the system. -/
structure Watcher where
  watchset : List GoString
  locked : Bool
  addSent : List GoString
  removeSent : List GoString
  deriving DecidableEq, Repr

/-- The function `MakeWatcher`. -/
def MakeWatcher : Watcher :=
  { watchset := [], locked := false, addSent := [], removeSent := [] }

/-- The assignment `m[k] = struct{}{}` on the keys of a map. -/
def mapSet (m : List GoString) (k : GoString) : List GoString :=
  if k ∈ m then m else k :: m

/-- The builtin `delete(m, k)` on the keys of a map. -/
def mapDelete (m : List GoString) (k : GoString) : List GoString :=
  m.filter (· ≠ k)

/-- The method `Watcher.AddWatch`. `wd` is the result of `os.Getwd`; `osAdd`
is the answer of `watcher.Add`, which `RunLoop` sends back on `w.err` for the
name received on `w.add`. The result is `none` when the call never returns
because `mux` is held. -/
def Watcher.AddWatch (w : Watcher) (wd : Except GoError GoString)
    (osAdd : GoString → Option GoError) (fname : GoString) :
    Option (Watcher × Option GoError) :=
  match filepath.Abs wd fname with
  | (_, some err) => some (w, some err)
  | (fname, none) =>
    -- w.mux.Lock()
    if w.locked then none
    else
      let w1 := { w with locked := true }
      if fname ∈ w1.watchset then some (w1, none)
      else
        let w2 := { w1 with watchset := mapSet w1.watchset fname }
        -- w.mux.Unlock()
        let w3 := { w2 with locked := false }
        -- w.add <- fname; return <-w.err
        some ({ w3 with addSent := w3.addSent ++ [fname] }, osAdd fname)

/-- The method `Watcher.RemoveWatch`, with `osRemove` the answer of
`watcher.Remove`. -/
def Watcher.RemoveWatch (w : Watcher) (wd : Except GoError GoString)
    (osRemove : GoString → Option GoError) (fname : GoString) :
    Option (Watcher × Option GoError) :=
  match filepath.Abs wd fname with
  | (_, some err) => some (w, some err)
  | (fname, none) =>
    if w.locked then none
    else
      let w1 := { w with locked := true }
      if ¬ fname ∈ w1.watchset then some (w1, none)
      else
        let w2 := { w1 with watchset := mapDelete w1.watchset fname }
        let w3 := { w2 with locked := false }
        some ({ w3 with removeSent := w3.removeSent ++ [fname] }, osRemove fname)

/-- One round of `Watcher.RunLoop` for a notification `(name, op)` received
from `watcher.Events`: the event sent on `w.Events`. The result is `none` when
the round never gets past `w.mux.Lock()`. -/
def Watcher.runLoopEvent (w : Watcher) (wd : Except GoError GoString)
    (name : GoString) (op : fsnotify.Op) : Option Event :=
  let absName := (filepath.Abs wd name).1
  let dname := filepath.Dir absName
  if w.locked then none
  else
    let ok := decide (absName ∈ w.watchset)
    let dok := decide (dname ∈ w.watchset)
    let newevent : Event := { Name := absName, Op := op.bits }
    if ok then some newevent
    else if dok then some { newevent with Op := newevent.Op ||| DirChild }
    else some newevent

end watch

/-! ## Package `watch`: the incremental tailer (`tail.go`) -/

namespace watch

/-- An `*os.File` open for reading: its name and its offset. -/
structure File where
  name : GoString
  pos : Nat
  deriving DecidableEq, Repr

/-- The method `File.Seek(offset, 0)`; a negative offset is refused. -/
def File.SeekStart (f : File) (offset : Int) : File × Option GoError :=
  if offset < 0 then (f, some (.os "invalid argument".toList))
  else ({ f with pos := offset.toNat }, none)

/-- The struct `Tail`. -/
structure Tail where
  Filename : GoString
  file : Option File
  reader : Option bufio.Reader
  lastPos : Int
  deriving DecidableEq, Repr

/-- The method `Tail.Close`. -/
def Tail.Close (t : Tail) : Tail :=
  { t with file := none, reader := none }

/-- The method `Tail.resetAtOffset`; the error is returned next to the tail. -/
def Tail.resetAtOffset (t : Tail) (offset : Int) : Except Panic (Tail × Option GoError) :=
  match t.file with
  | none => .ok (t, some .ErrInvalid)
  | some f =>
    match f.SeekStart offset with
    | (_, some e) => .ok (t, some e)
    | (f', none) =>
      match t.reader with
      | none => .error .nilDeref
      | some r => .ok ({ t with file := some f', reader := some r.Reset }, none)

/-- The loop of `Tail.ProcessLines` over a file holding `content`. The handler
`process` is a closure: its captured state `σ` is threaded through. -/
def Tail.processLinesLoop {σ : Type} (content : GoString)
    (process : σ → GoString → Except Panic (σ × Option GoError)) :
    Nat → Tail → σ → Except Panic (Tail × σ × GoError)
  | 0, t, h => .ok (t, h, .ErrNoProgress)
  | fuel + 1, t, h =>
    -- t.lastPos, err = t.file.Seek(0, os.SEEK_CUR)
    match t.file with
    | none => .ok ({ t with lastPos := 0 }, h, .ErrInvalid)
    | some f =>
      let t1 := { t with lastPos := (f.pos : Int) }
      match t1.reader with
      | none => .error .nilDeref
      | some r =>
        let offset : Int := t1.lastPos - (r.Buffered : Int)
        -- line, err = t.reader.ReadString('\n')
        let res := r.ReadString content f.pos '\n'
        let t2 := { t1 with file := some { f with pos := res.pos }, reader := some res.reader }
        match res.err with
        | none =>
          match process h res.line with
          | .error p => .error p
          | .ok (h', some e) => .ok (t2, h', e)
          | .ok (h', none) => Tail.processLinesLoop content process fuel t2 h'
        | some .EOF =>
          if res.line ≠ [] then
            match t2.resetAtOffset offset with
            | .error p => .error p
            | .ok (t3, _) => .ok (t3, h, .EOF)
          else .ok (t2, h, .EOF)
        | some e => .ok (t2, h, e)

/-- The number of bytes the tail has not yet handed out: buffered bytes plus
the bytes of the file beyond its offset. -/
def Tail.unread (content : GoString) (t : Tail) : Nat :=
  (match t.reader with | some r => r.Buffered | none => 0) +
  (match t.file with | some f => content.length - f.pos | none => 0)

/-- The method `Tail.ProcessLines` over a file holding `content`: every round
that does not return hands a line of at least one byte to the handler, so the
loop is entered at most once per unread byte, plus once. -/
def Tail.ProcessLines {σ : Type} (t : Tail) (content : GoString)
    (process : σ → GoString → Except Panic (σ × Option GoError)) (h : σ) :
    Except Panic (Tail × σ × GoError) :=
  Tail.processLinesLoop content process (t.unread content + 1) t h

/-- The method `Tail.ReadLines`: the handler appends each line to `result`. -/
def Tail.ReadLines (t : Tail) (content : GoString) :
    Except Panic (Tail × List GoString × GoError) :=
  t.ProcessLines content (fun result l => .ok (result ++ [l], none)) []

/-- The tail that `TailFile` returns once the file is open: offset 0 and an
empty buffer. -/
def Tail.opened (filename : GoString) : Tail :=
  { Filename := filepath.Clean filename,
    file := some { name := filepath.Clean filename, pos := 0 },
    reader := some bufio.NewReader,
    lastPos := 0 }

/-- The function `TailFile`; `canOpen` tells whether `MyOpenFile` (`os.Open`)
can open the named file. -/
def TailFile (canOpen : GoString → Bool) (filename : GoString) : Option Tail × Option GoError :=
  if canOpen (filepath.Clean filename) then (some (Tail.opened filename), none)
  else (none, some (.os "open: no such file or directory".toList))

/-! ### The tailed file as a growing byte sequence -/

/-- The complete lines of `s`, each with its newline, in order; `cur` is the
part of the current line already seen. -/
def linesFrom (cur : GoString) : GoString → List GoString
  | [] => []
  | c :: cs => if c = '\n' then (cur ++ [c]) :: linesFrom [] cs else linesFrom (cur ++ [c]) cs

/-- The newline-terminated lines of a byte sequence. -/
def completeLines (s : GoString) : List GoString := linesFrom [] s

/-- What follows the last newline of `s`; `cur` is the part of the current
line already seen. -/
def remainderFrom (cur : GoString) : GoString → GoString
  | [] => cur
  | c :: cs => if c = '\n' then remainderFrom [] cs else remainderFrom (cur ++ [c]) cs

/-- The unterminated trailing remainder of a byte sequence. -/
def remainder (s : GoString) : GoString := remainderFrom [] s

/-- What happens to a tailed file: a writer appends bytes, or the owner of the
tail calls `ProcessLines`. -/
inductive TailEvent where
  | append (bytes : GoString)
  | processLines
  deriving DecidableEq, Repr

/-- The bytes an event appends. -/
def TailEvent.bytes : TailEvent → GoString
  | .append b => b
  | .processLines => []

/-- The bytes a list of events appends. -/
def appendedBytes (evs : List TailEvent) : GoString := (evs.map TailEvent.bytes).flatten

/-- One empty list of lines per `ProcessLines` call among the events. -/
def idleCalls : List TailEvent → List (List GoString)
  | [] => []
  | .append _ :: evs => idleCalls evs
  | .processLines :: evs => [] :: idleCalls evs

/-- A tailed file and its tail: the bytes of the file, the tail, and for each
`ProcessLines` call so far, oldest first, the lines it passed to the handler. -/
structure TailWorld where
  content : GoString
  tail : Tail
  handed : List (List GoString)
  deriving DecidableEq, Repr

/-- A file holding `content` and a tail just opened on it. -/
def TailWorld.opened (filename content : GoString) : TailWorld :=
  { content := content, tail := Tail.opened filename, handed := [] }

/-- One event: an append grows the file; a call runs `ProcessLines` with a
handler that records each line and returns no error. -/
def TailWorld.step (w : TailWorld) : TailEvent → Except Panic TailWorld
  | .append bytes => .ok { w with content := w.content ++ bytes }
  | .processLines =>
    match w.tail.ReadLines w.content with
    | .error p => .error p
    | .ok (t, lines, _) => .ok { w with tail := t, handed := w.handed ++ [lines] }

/-- A sequence of events, in order. -/
def TailWorld.run (w : TailWorld) : List TailEvent → Except Panic TailWorld
  | [] => .ok w
  | ev :: evs =>
    match w.step ev with
    | .error p => .error p
    | .ok w' => TailWorld.run w' evs

/-- The offset of the file handle of a tail, 0 for a closed tail. -/
def Tail.offset (t : Tail) : Nat :=
  match t.file with
  | some f => f.pos
  | none => 0

/-- Between two calls the tail is open with an empty buffer of the default
size, its offset lies within the file, and the lines handed out so far are the
complete lines of the bytes before that offset, which end a line. -/
def TailWorld.Consistent (w : TailWorld) : Prop :=
  ∃ f : File, w.tail.file = some f ∧
    w.tail.reader = some { buf := [], size := bufio.defaultBufSize } ∧
    f.pos ≤ w.content.length ∧
    w.handed.flatten = completeLines (w.content.take f.pos) ∧
    remainder (w.content.take f.pos) = []

end watch

/-! ## Standard library: `regexp`, as far as `journalRE` needs it -/

namespace regexp

/-- The syntax of the regular expressions used: `x`, `[lo-hi]`, `.`, the
concatenation, `*`, and what their derivatives need in addition. -/
inductive Regexp where
  /-- Matches no string. -/
  | none
  /-- Matches the empty string. -/
  | empty
  /-- A literal character, also written as the class `[x]`. -/
  | char (c : Char)
  /-- The class `[lo-hi]`. -/
  | range (lo hi : Char)
  /-- The dot: any character but the newline. It takes one element of the
  string, which is one byte here and one rune in Go: the same on ASCII names. -/
  | any
  /-- The concatenation of two expressions. -/
  | cat (a b : Regexp)
  /-- The alternative `a|b`. -/
  | alt (a b : Regexp)
  /-- The repetition `a*`. -/
  | star (a : Regexp)
  deriving DecidableEq, Repr

/-- The repetition `a+`. -/
def Regexp.plus (a : Regexp) : Regexp := .cat a (.star a)

/-- The literal string `s`. -/
def Regexp.lit : GoString → Regexp
  | [] => .empty
  | c :: cs => .cat (.char c) (Regexp.lit cs)

/-- Whether the expression matches the empty string. -/
def Regexp.nullable : Regexp → Bool
  | .none => false
  | .empty => true
  | .char _ => false
  | .range _ _ => false
  | .any => false
  | .cat a b => a.nullable && b.nullable
  | .alt a b => a.nullable || b.nullable
  | .star _ => true

/-- The derivative: what is left to match after the character `c`. -/
def Regexp.deriv (c : Char) : Regexp → Regexp
  | .none => .none
  | .empty => .none
  | .char x => if c = x then .empty else .none
  | .range lo hi => if lo.toNat ≤ c.toNat ∧ c.toNat ≤ hi.toNat then .empty else .none
  | .any => if c = '\n' then .none else .empty
  | .cat a b =>
    if a.nullable then .alt (.cat (a.deriv c) b) (b.deriv c) else .cat (a.deriv c) b
  | .alt a b => .alt (a.deriv c) (b.deriv c)
  | .star a => .cat (a.deriv c) (.star a)

/-- Whether the expression matches the whole of `s`: the method `MatchString`
of an expression compiled from `^...$`. -/
def Regexp.MatchString (re : Regexp) : GoString → Bool
  | [] => re.nullable
  | c :: cs => (re.deriv c).MatchString cs

end regexp

/-! ## Package `edgo`: the orchestrator (`elitewatcher.go`) -/

/-- The body of `journalRE`, compiled from
`^journal[.][0-9]+[.][0-9]+.log$`: the last dot is not in a class. -/
def journalREBody : regexp.Regexp :=
  .cat (regexp.Regexp.lit "journal".toList) <|
  .cat (.char '.') <|
  .cat (regexp.Regexp.plus (.range '0' '9')) <|
  .cat (.char '.') <|
  .cat (regexp.Regexp.plus (.range '0' '9')) <|
  .cat .any <|
  regexp.Regexp.lit "log".toList

/-- The method `journalRE.MatchString`. -/
def journalRE.MatchString (s : GoString) : Bool := journalREBody.MatchString s

/-- The struct `EliteWatcher`, as far as the journal selection and the line
handler use it: the directory, the filter (the keys of the map) and the tail. -/
structure EliteWatcher where
  DataDirectory : GoString
  EventFilter : List GoString
  tail : Option watch.Tail
  deriving DecidableEq, Repr

/-- The second half of `EliteWatcher.maybeSetJournalFile`: open the candidate
and, when that succeeds, make it the tail. -/
def EliteWatcher.openJournal (ew : EliteWatcher) (canOpen : GoString → Bool)
    (filename : GoString) : EliteWatcher :=
  match watch.TailFile canOpen filename with
  | (some tail, none) => { ew with tail := some tail }
  | _ => ew

/-- The method `EliteWatcher.maybeSetJournalFile`; `canOpen` tells which files
`os.Open` can open at the time of the call. A tail closed by the method stays
referenced by `ew.tail` unless a new one replaces it. -/
def EliteWatcher.maybeSetJournalFile (ew : EliteWatcher) (canOpen : GoString → Bool)
    (filename : GoString) : EliteWatcher :=
  match ew.tail with
  | some t =>
    let current := strings.ToLower (filepath.Base t.Filename)
    let newfile := strings.ToLower (filepath.Base filename)
    if strings.Compare current newfile ≥ 0 then ew
    else ({ ew with tail := some t.Close } : EliteWatcher).openJournal canOpen filename
  | none => ew.openJournal canOpen filename

/-- The method `EliteWatcher.setupInitialJournalFile`; `readDir` is the result
of `ioutil.ReadDir` on the data directory (the names of its entries) and `wd`
that of `os.Getwd`. -/
def EliteWatcher.setupInitialJournalFile (ew : EliteWatcher)
    (readDir : Except GoError (List GoString)) (wd : Except GoError GoString)
    (canOpen : GoString → Bool) : EliteWatcher × Option GoError :=
  match readDir with
  | .error e => (ew, some e)
  | .ok files =>
    let journalFiles := files.filter
      (fun name => journalRE.MatchString (strings.ToLower (filepath.Base name)))
    if journalFiles.length > 0 then
      let sorted := sort.Strings journalFiles
      match filepath.Abs wd
          (filepath.Join [ew.DataDirectory, sorted.getLastD []]) with
      | (_, some e) => (ew, some e)
      | (journal, none) => (ew.maybeSetJournalFile canOpen journal, none)
    else (ew, none)

/-- A file name as the callers of `maybeSetJournalFile` pass it: a result of
`filepath.Abs` (`setupInitialJournalFile` passes `journal`; `fileTailer` passes
the `event.Name` that `RunLoop` made of `absName`) that is not empty, as a name
whose base matches `journalRE` is not. -/
def EliteWatcher.passedCandidate (q : GoString) : Prop :=
  q ≠ [] ∧ ∃ (wd : Except GoError GoString) (x : GoString), q = (filepath.Abs wd x).1

/-- The lower-cased base name of the file currently selected, if any. -/
def EliteWatcher.selectedBase (ew : EliteWatcher) : Option GoString :=
  ew.tail.map (fun t => strings.ToLower (filepath.Base t.Filename))

/-- A sequence of `maybeSetJournalFile` calls, each with the files that can
be opened at its time and its candidate. -/
def EliteWatcher.maybeSetAll (ew : EliteWatcher) :
    List ((GoString → Bool) × GoString) → EliteWatcher
  | [] => ew
  | (canOpen, q) :: rest => (ew.maybeSetJournalFile canOpen q).maybeSetAll rest

/-! ## Standard library: `bytes`, and Go slice expressions -/

namespace bytes

/-- The function `bytes.Index`; `none` stands for `-1`. -/
def Index : GoString → GoString → Option Nat
  | [], sep => if sep = [] then some 0 else none
  | c :: cs, sep =>
    if sep.isPrefixOf (c :: cs) then some 0
    else match Index cs sep with
      | some i => some (i + 1)
      | none => none

/-- The bytes before the first `sep` and those after it, when `sep` occurs. -/
def cut (sep : Char) : GoString → Option (GoString × GoString)
  | [] => none
  | c :: cs =>
    if c = sep then some ([], cs)
    else match cut sep cs with
      | some (a, b) => some (c :: a, b)
      | none => none

/-- The function `bytes.SplitN` for a separator of one byte and `n ≥ 0`: at
most `n` pieces, the last one unsplit. -/
def SplitN (sep : Char) : Nat → GoString → List GoString
  | 0, _ => []
  | 1, s => [s]
  | n + 2, s =>
    match cut sep s with
    | some (a, b) => a :: SplitN sep (n + 1) b
    | none => [s]

end bytes

/-- The slice expression `s[lo:hi]` with `hi` at most `len(s)`, as the code has
it: it panics unless `0 ≤ lo ≤ hi`. -/
def sliceExpr (s : GoString) (lo hi : Int) : Except Panic GoString :=
  if 0 ≤ lo ∧ lo ≤ hi ∧ hi ≤ (s.length : Int) then .ok ((s.take hi.toNat).drop lo.toNat)
  else .error .sliceBounds

/-- The index expression `f[i]`, which panics unless `i < len(f)`. -/
def indexExpr (f : List GoString) (i : Nat) : Except Panic GoString :=
  match f.get? i with
  | some x => .ok x
  | none => .error .indexRange

/-! ## Package `edgo`: the journal line helpers (`parse.go`) -/

/-- A value held in an `interface{}` of a decoded object, as far as the code
tells values apart: a string, or a value of another type. -/
inductive Value where
  | string (s : GoString)
  | other
  deriving DecidableEq, Repr

/-- The type `Json`, a `map[string]interface{}`, as its list of entries. -/
abbrev Json := List (GoString × Value)

/-- The index expression `v[key]` on a map: `none` is the nil interface of a
missing key. -/
def Json.index (v : Json) (key : GoString) : Option Value :=
  match v.find? (fun kv => kv.1 = key) with
  | some kv => some kv.2
  | none => none

/-- The function `ParseJournalLine`; `unmarshal` is `json.Unmarshal` into a
`Json`. -/
def ParseJournalLine (unmarshal : GoString → Except GoError Json) (contents : GoString) :
    Json × Option GoError :=
  match unmarshal contents with
  | .ok jsonMap => (jsonMap, none)
  | .error err => ([], some err)

/-- The bytes of the Go literal for the event key, quotes included. -/
def eventKey : GoString := ['"', 'e', 'v', 'e', 'n', 't', '"']

/-- The function `GetEventNameByte`. -/
def GetEventNameByte (contents : GoString) : Except Panic GoString :=
  match bytes.Index contents eventKey with
  | some idx =>
    match sliceExpr contents ((idx : Int) + 7) ((contents.length : Int) - 1) with
    | .error p => .error p
    | .ok tmp =>
      let f := bytes.SplitN '"' 3 tmp
      indexExpr f 1
  | none => .ok []

/-- The dynamic types that the type switch of `GetEventName` tells apart; the
pointers to the status structs and to `Base` carry their field `Event`. -/
inductive Record where
  | bytes (v : GoString)
  | string (v : GoString)
  | json (v : Json)
  | status (Event : GoString)
  | unknown
  deriving DecidableEq, Repr

/-- The function `GetEventName`. -/
def GetEventName : Record → Except Panic GoString
  | .bytes v => GetEventNameByte v
  | .string v => GetEventNameByte v
  | .json v =>
    -- v["event"].(string)
    match v.index "event".toList with
    | some (.string s) => .ok s
    | _ => .error .typeAssert
  | .status ev => .ok ev
  | .unknown => .ok []

/-! ## Package `edgo`: the journal line handler of `tailJournalFile` -/

/-- The case that the `select` publishing a record takes: the send on
`ew.Journals`, or the receive from `ew.shutdown.Dying()`. -/
inductive SelectCase where
  | send
  | dying
  deriving DecidableEq, Repr

/-- The check of an event name against `ew.EventFilter`: `true` when the line
is to be dropped (the name is not empty and not a key of the filter). -/
def EliteWatcher.filteredOut (ew : EliteWatcher) (name : GoString) : Bool :=
  decide (name ≠ []) && !decide (name ∈ ew.EventFilter)

/-- The handler that `tailJournalFile` passes to `ProcessLines`. `journals`
holds the records sent on `ew.Journals` so far, oldest first; `sel` is the case
its `select` takes. The outer variable `name` stays empty: the two inner
declarations `name := ...` shadow it. -/
def EliteWatcher.journalLineHandler (ew : EliteWatcher)
    (unmarshal : GoString → Except GoError Json) (sel : SelectCase)
    (journals : List Json) (l : GoString) : Except Panic (List Json × Option GoError) :=
  let b := l
  let name : GoString := []
  let sniff : Except Panic Bool :=
    if ew.EventFilter.length > 0 then
      match GetEventNameByte b with
      | .error p => .error p
      | .ok name1 => .ok (ew.filteredOut name1)
    else .ok false
  match sniff with
  | .error p => .error p
  | .ok true => .ok (journals, none)
  | .ok false =>
    match ParseJournalLine unmarshal b with
    | (_, some _) => .ok (journals, none)
    | (content, none) =>
      let check : Except Panic Bool :=
        if ew.EventFilter.length > 0 ∧ name = [] then
          match GetEventName (.json content) with
          | .error p => .error p
          | .ok name2 => .ok (ew.filteredOut name2)
        else .ok false
      match check with
      | .error p => .error p
      | .ok true => .ok (journals, none)
      | .ok false =>
        match sel with
        | .send => .ok (journals ++ [content], none)
        | .dying => .ok (journals, some .ErrEWShutdown)

/-- The journal line of the end-to-end scenario, as `ProcessLines` hands it
over: with its newline. -/
def fsdJumpLine : GoString :=
  "\x7b\"timestamp\":\"2023-01-01T00:00:00Z\",\"event\":\"FSDJump\"\x7d\n".toList

/-- A line whose event name is the empty string. -/
def emptyEventLine : GoString := "\x7b\"event\":\"\"\x7d\n".toList

/-- A line in which the bytes of the event key first occur as a value. -/
def eventValueLine : GoString := "\x7b\"x\":\"event\",\"event\":\"Docked\"\x7d\n".toList

/-- A line that is a JSON object without an event field. -/
def noEventLine : GoString := "\x7b\"a\":1\x7d\n".toList

/-- A line that ends right after the bytes of the event key. -/
def bareKeyLine : GoString := "\"event\"\n".toList

/-- The results of `json.Unmarshal` on the example lines above; every other
input is answered with an error, which is right for `bareKeyLine`. -/
def exampleUnmarshal (contents : GoString) : Except GoError Json :=
  if contents = fsdJumpLine then
    .ok [("timestamp".toList, .string "2023-01-01T00:00:00Z".toList),
         ("event".toList, .string "FSDJump".toList)]
  else if contents = emptyEventLine then .ok [("event".toList, .string [])]
  else if contents = eventValueLine then
    .ok [("x".toList, .string "event".toList), ("event".toList, .string "Docked".toList)]
  else if contents = noEventLine then .ok [("a".toList, .other)]
  else .error (.os "json: cannot unmarshal".toList)

/-! ## The rotating journal names as the specification words them -/

/-- The rotating journal names as the specification words them: compared
without regard to case, the prefix `journal.`, a non-empty run of decimal
digits, a `.`, a second non-empty run of decimal digits, and the extension
`.log`, with nothing before or after. -/
def specRotatingName (base : GoString) : Bool :=
  let s := strings.ToLower base
  let keyword := "journal.".toList
  if keyword.isPrefixOf s then
    let r1 := s.drop keyword.length
    let d1 := r1.takeWhile Char.isDigit
    match r1.dropWhile Char.isDigit with
    | '.' :: r2 =>
      let d2 := r2.takeWhile Char.isDigit
      decide (d1 ≠ []) && decide (d2 ≠ []) && decide (r2.dropWhile Char.isDigit = ".log".toList)
    | _ => false
  else false

/-! ## Package `edgo`: `tailJournalFile` -/

/-- The method `EliteWatcher.tailJournalFile` over a journal file holding
`content`: nothing to do without a tail; otherwise `ProcessLines` with the
journal line handler, whose result is dropped. `journals` holds the records
sent on `ew.Journals` so far. -/
def EliteWatcher.tailJournalFile (ew : EliteWatcher) (content : GoString)
    (unmarshal : GoString → Except GoError Json) (sel : SelectCase) (journals : List Json) :
    Except Panic (EliteWatcher × List Json) :=
  match ew.tail with
  | none => .ok (ew, journals)
  | some t =>
    match t.ProcessLines content (fun js l => ew.journalLineHandler unmarshal sel js l)
        journals with
    | .error p => .error p
    | .ok (t', js, _) => .ok ({ ew with tail := some t' }, js)

/-- Whether the tail holds an open file: `Close` has not been called on it. -/
def watch.Tail.isOpen (t : watch.Tail) : Bool := t.file.isSome && t.reader.isSome

/-- The orchestrator holds no tail or an open one. -/
def EliteWatcher.tailUsable (ew : EliteWatcher) : Bool :=
  match ew.tail with
  | none => true
  | some t => t.isOpen

/-! ## Example states -/

/-- An orchestrator without filter, watching `/d`, whose current journal is
the open file named `current`. -/
def watcherOn (current : GoString) : EliteWatcher :=
  { DataDirectory := "/d".toList, EventFilter := [], tail := some (watch.Tail.opened current) }

/-- An orchestrator watching `/d` with the given filter and no journal. -/
def watcherWith (filter : List GoString) : EliteWatcher :=
  { DataDirectory := "/d".toList, EventFilter := filter, tail := none }

/-- A file system in which every file can be opened. -/
def allFiles : GoString → Bool := fun _ => true

/-- A file system in which no file can be opened. -/
def noFiles : GoString → Bool := fun _ => false

end Edgo

namespace Edgo

/-! ## Lemmas on lines and remainders -/

theorem splitAfter_eq_none {d : Char} {s : GoString} (h : d ∉ s) :
    bufio.splitAfter d s = none := by
  induction s with
  | nil => rfl
  | cons c cs ih =>
    have hc : c ≠ d := fun e => h (by simp [e])
    have hcs : d ∉ cs := fun e => h (by simp [e])
    simp [bufio.splitAfter, hc, ih hcs]

theorem splitAfter_not_mem {d : Char} {s : GoString} (h : bufio.splitAfter d s = none) :
    d ∉ s := by
  induction s with
  | nil => simp
  | cons c cs ih =>
    by_cases hc : c = d
    · simp [bufio.splitAfter, hc] at h
    · cases hs : bufio.splitAfter d cs with
      | none =>
        have := ih hs
        simp [this, Ne.symm hc]
      | some lr => simp [bufio.splitAfter, hc, hs] at h

theorem splitAfter_some {d : Char} {s l r : GoString} (h : bufio.splitAfter d s = some (l, r)) :
    s = l ++ r ∧ ∃ l0, l = l0 ++ [d] ∧ d ∉ l0 := by
  induction s generalizing l r with
  | nil => simp [bufio.splitAfter] at h
  | cons c cs ih =>
    by_cases hc : c = d
    · simp [bufio.splitAfter, hc] at h
      obtain ⟨rfl, rfl⟩ := h
      exact ⟨by simp [hc], [], by simp, by simp⟩
    · cases hs : bufio.splitAfter d cs with
      | none => simp [bufio.splitAfter, hc, hs] at h
      | some lr =>
        obtain ⟨l1, r1⟩ := lr
        simp [bufio.splitAfter, hc, hs] at h
        obtain ⟨rfl, rfl⟩ := h
        obtain ⟨e, l0, hl, hn⟩ := ih hs
        refine ⟨by simp [e], c :: l0, by simp [hl], ?_⟩
        simp [hn, Ne.symm hc]

theorem splitAfter_append_some {d : Char} {s l r : GoString} (t : GoString)
    (h : bufio.splitAfter d s = some (l, r)) :
    bufio.splitAfter d (s ++ t) = some (l, r ++ t) := by
  induction s generalizing l r with
  | nil => simp [bufio.splitAfter] at h
  | cons c cs ih =>
    by_cases hc : c = d
    · simp [bufio.splitAfter, hc] at h ⊢
      exact ⟨h.1, by rw [h.2]⟩
    · cases hs : bufio.splitAfter d cs with
      | none => simp [bufio.splitAfter, hc, hs] at h
      | some lr =>
        obtain ⟨l1, r1⟩ := lr
        simp [bufio.splitAfter, hc, hs] at h
        obtain ⟨rfl, rfl⟩ := h
        simp [bufio.splitAfter, hc, ih hs]

theorem splitAfter_append_none {d : Char} {s : GoString} (t : GoString) (h : d ∉ s) :
    bufio.splitAfter d (s ++ t) =
      (bufio.splitAfter d t).map (fun lr => (s ++ lr.1, lr.2)) := by
  induction s with
  | nil => cases hs : bufio.splitAfter d t <;> simp [hs]
  | cons c cs ih =>
    have hc : c ≠ d := fun e => h (by simp [e])
    have hcs : d ∉ cs := fun e => h (by simp [e])
    rw [List.cons_append, bufio.splitAfter, if_neg hc, ih hcs]
    cases bufio.splitAfter d t <;> simp

namespace watch

theorem linesFrom_of_not_mem {s : GoString} (cur : GoString) (h : '\n' ∉ s) :
    linesFrom cur s = [] := by
  induction s generalizing cur with
  | nil => rfl
  | cons c cs ih =>
    have hc : c ≠ '\n' := fun e => h (by simp [e])
    have hcs : '\n' ∉ cs := fun e => h (by simp [e])
    simp [linesFrom, hc, ih _ hcs]

theorem remainderFrom_of_not_mem {s : GoString} (cur : GoString) (h : '\n' ∉ s) :
    remainderFrom cur s = cur ++ s := by
  induction s generalizing cur with
  | nil => simp [remainderFrom]
  | cons c cs ih =>
    have hc : c ≠ '\n' := fun e => h (by simp [e])
    have hcs : '\n' ∉ cs := fun e => h (by simp [e])
    simp [remainderFrom, hc, ih _ hcs]

theorem linesFrom_append (cur a b : GoString) :
    linesFrom cur (a ++ b) = linesFrom cur a ++ linesFrom (remainderFrom cur a) b := by
  induction a generalizing cur with
  | nil => simp [linesFrom, remainderFrom]
  | cons c cs ih =>
    by_cases hc : c = '\n'
    · simp [linesFrom, remainderFrom, hc, ih]
    · simp [linesFrom, remainderFrom, hc, ih]

theorem remainderFrom_append (cur a b : GoString) :
    remainderFrom cur (a ++ b) = remainderFrom (remainderFrom cur a) b := by
  induction a generalizing cur with
  | nil => simp [remainderFrom]
  | cons c cs ih =>
    by_cases hc : c = '\n'
    · simp [remainderFrom, hc, ih]
    · simp [remainderFrom, hc, ih]

theorem flatten_linesFrom (cur s : GoString) :
    (linesFrom cur s).flatten ++ remainderFrom cur s = cur ++ s := by
  induction s generalizing cur with
  | nil => simp [linesFrom, remainderFrom]
  | cons c cs ih =>
    by_cases hc : c = '\n'
    · simp [linesFrom, remainderFrom, hc, ih]
    · simp [linesFrom, remainderFrom, hc, ih]

theorem remainderFrom_not_mem {cur : GoString} (s : GoString) (h : '\n' ∉ cur) :
    '\n' ∉ remainderFrom cur s := by
  induction s generalizing cur with
  | nil => simpa [remainderFrom] using h
  | cons c cs ih =>
    by_cases hc : c = '\n'
    · simp only [remainderFrom, hc, if_true]
      exact ih (by simp)
    · simp only [remainderFrom, hc, if_false]
      exact ih (by simp [h, Ne.symm hc])

theorem remainder_not_mem (s : GoString) : '\n' ∉ remainder s :=
  remainderFrom_not_mem s (by simp)

theorem flatten_completeLines (s : GoString) :
    (completeLines s).flatten ++ remainder s = s := by
  simpa using flatten_linesFrom [] s

theorem completeLines_append (a b : GoString) :
    completeLines (a ++ b) = completeLines a ++ linesFrom (remainder a) b :=
  linesFrom_append [] a b

theorem remainder_append (a b : GoString) :
    remainder (a ++ b) = remainderFrom (remainder a) b :=
  remainderFrom_append [] a b

/-- A first line `l0 ++ "\n"` splits off the complete lines. -/
theorem completeLines_line (l0 rest : GoString) (h : '\n' ∉ l0) :
    completeLines (l0 ++ '\n' :: rest) = (l0 ++ ['\n']) :: completeLines rest := by
  rw [completeLines_append, completeLines, linesFrom_of_not_mem _ h, remainder,
    remainderFrom_of_not_mem _ h]
  simp [linesFrom, completeLines]

theorem remainder_line (l0 rest : GoString) (h : '\n' ∉ l0) :
    remainder (l0 ++ '\n' :: rest) = remainder rest := by
  rw [remainder_append, remainder, remainderFrom_of_not_mem _ h]
  simp [remainderFrom, remainder]

/-- The bytes of the complete lines form a prefix with no remainder. -/
theorem remainder_flatten_completeLines (s : GoString) :
    remainder (completeLines s).flatten = [] ∧
      completeLines (completeLines s).flatten = completeLines s := by
  have hs := flatten_completeLines s
  have hn := remainder_not_mem s
  have h1 : remainder ((completeLines s).flatten ++ remainder s) = remainder s := by rw [hs]
  rw [remainder_append, remainderFrom_of_not_mem _ hn] at h1
  have h2 : completeLines ((completeLines s).flatten ++ remainder s) = completeLines s := by
    rw [hs]
  rw [completeLines_append, linesFrom_of_not_mem _ hn] at h2
  constructor
  · have := congrArg List.length h1
    simpa using this
  · simpa using h2

end watch

end Edgo

namespace Edgo

/-! ## `bufio.Reader.ReadString` returns the next line of the stream -/

namespace bufio

theorem readStringLoop_spec (content : GoString) (d : Char) (size : Nat) (hsize : 0 < size)
    (fuel : Nat) (acc : GoString) (pos : Nat) (buf : GoString) (hpos : pos ≤ content.length)
    (hfuel : 2 * (content.length - pos) + (if size ≤ buf.length then 1 else 0) + 1 ≤ fuel) :
    (Reader.readStringLoop content d size fuel acc pos buf).pos ≤ content.length ∧
    (Reader.readStringLoop content d size fuel acc pos buf).reader.size = size ∧
    (∀ l r, splitAfter d (buf ++ content.drop pos) = some (l, r) →
      (Reader.readStringLoop content d size fuel acc pos buf).line = acc ++ l ∧
      (Reader.readStringLoop content d size fuel acc pos buf).err = none ∧
      (Reader.readStringLoop content d size fuel acc pos buf).reader.buf ++
        content.drop (Reader.readStringLoop content d size fuel acc pos buf).pos = r) ∧
    (splitAfter d (buf ++ content.drop pos) = none →
      (Reader.readStringLoop content d size fuel acc pos buf).line
        = acc ++ (buf ++ content.drop pos) ∧
      (Reader.readStringLoop content d size fuel acc pos buf).err = some .EOF ∧
      (Reader.readStringLoop content d size fuel acc pos buf).reader.buf = [] ∧
      (Reader.readStringLoop content d size fuel acc pos buf).pos = content.length) := by
  induction fuel generalizing acc pos buf with
  | zero => omega
  | succ fuel ih =>
    rw [Reader.readStringLoop]
    cases hb : splitAfter d buf with
    | some lr =>
      obtain ⟨l1, r1⟩ := lr
      have happ := splitAfter_append_some (content.drop pos) hb
      simp only [happ]
      refine ⟨hpos, by simp, ?_, by simp⟩
      intro l r h
      simp only [Option.some.injEq, Prod.mk.injEq] at h
      obtain ⟨rfl, rfl⟩ := h
      simp
    | none =>
      have hnb : d ∉ buf := splitAfter_not_mem hb
      have happ := splitAfter_append_none (content.drop pos) hnb
      simp only
      by_cases hfull : size ≤ buf.length
      · rw [if_pos hfull]
        have hf : 2 * (content.length - pos) + (if size ≤ ([] : GoString).length then 1 else 0) + 1
            ≤ fuel := by
          rw [if_pos hfull] at hfuel
          have : ¬ size ≤ ([] : GoString).length := by simp; omega
          rw [if_neg this]; omega
        obtain ⟨h1, h2, h3, h4⟩ := ih (acc ++ buf) pos [] hpos hf
        refine ⟨h1, h2, ?_, ?_⟩
        · intro l r h
          rw [happ] at h
          cases hd : splitAfter d (content.drop pos) with
          | none => simp [hd] at h
          | some lr =>
            obtain ⟨l2, r2⟩ := lr
            simp only [hd, Option.map_some', Option.some.injEq, Prod.mk.injEq] at h
            obtain ⟨rfl, rfl⟩ := h
            obtain ⟨e1, e2, e3⟩ := h3 l2 r2 (by simpa using hd)
            exact ⟨by rw [e1]; simp, e2, e3⟩
        · intro h
          rw [happ] at h
          have hd : splitAfter d (content.drop pos) = none := by
            cases hd : splitAfter d (content.drop pos) with
            | none => rfl
            | some lr => simp [hd] at h
          obtain ⟨e1, e2, e3, e4⟩ := h4 (by simpa using hd)
          exact ⟨by rw [e1]; simp, e2, e3, e4⟩
      · rw [if_neg hfull]
        by_cases hn : min (size - buf.length) (content.length - pos) = 0
        · rw [if_pos hn]
          have hlen : content.length - pos = 0 := by
            rcases Nat.min_eq_zero_iff.mp hn with h | h
            · omega
            · exact h
          have hdrop : content.drop pos = [] := by
            apply List.drop_eq_nil_of_le; omega
          refine ⟨hpos, by simp, ?_, ?_⟩
          · intro l r h
            rw [hdrop, List.append_nil, hb] at h
            cases h
          · intro _
            rw [hdrop]
            refine ⟨by simp, by simp, by simp, ?_⟩
            show pos = content.length
            omega
        · rw [if_neg hn]
          have hnpos : 0 < min (size - buf.length) (content.length - pos) := Nat.pos_of_ne_zero hn
          have hle : min (size - buf.length) (content.length - pos) ≤ content.length - pos :=
            Nat.min_le_right _ _
          have hpos' : pos + min (size - buf.length) (content.length - pos) ≤ content.length := by
            omega
          have hf : 2 * (content.length - (pos + min (size - buf.length) (content.length - pos)))
              + (if size ≤ (buf ++ (content.drop pos).take
                  (min (size - buf.length) (content.length - pos))).length then 1 else 0) + 1
              ≤ fuel := by
            rw [if_neg hfull] at hfuel
            split <;> omega
          have havail : (buf ++ (content.drop pos).take
                (min (size - buf.length) (content.length - pos))) ++
              content.drop (pos + min (size - buf.length) (content.length - pos))
              = buf ++ content.drop pos := by
            rw [List.append_assoc, ← List.drop_drop, List.take_append_drop]
          obtain ⟨h1, h2, h3, h4⟩ := ih acc _ _ hpos' hf
          rw [havail] at h3 h4
          exact ⟨h1, h2, h3, h4⟩

end bufio

end Edgo

namespace Edgo

namespace bufio

theorem ReadString_spec (b : Reader) (content : GoString) (pos : Nat) (d : Char)
    (hsize : 0 < b.size) (hpos : pos ≤ content.length) :
    (b.ReadString content pos d).pos ≤ content.length ∧
    (b.ReadString content pos d).reader.size = b.size ∧
    (∀ l r, splitAfter d (b.buf ++ content.drop pos) = some (l, r) →
      (b.ReadString content pos d).line = l ∧
      (b.ReadString content pos d).err = none ∧
      (b.ReadString content pos d).reader.buf ++
        content.drop (b.ReadString content pos d).pos = r) ∧
    (splitAfter d (b.buf ++ content.drop pos) = none →
      (b.ReadString content pos d).line = b.buf ++ content.drop pos ∧
      (b.ReadString content pos d).err = some .EOF ∧
      (b.ReadString content pos d).reader.buf = [] ∧
      (b.ReadString content pos d).pos = content.length) := by
  have h := readStringLoop_spec content d b.size hsize (2 * (content.length - pos) + 3) []
    pos b.buf hpos (by split <;> omega)
  simpa [Reader.ReadString] using h

end bufio

namespace watch

/-! ## One `ProcessLines` call -/

theorem processLinesLoop_spec {σ : Type} (content : GoString) (g : σ → GoString → σ)
    (fuel : Nat) (t : Tail) (h : σ) (f : File) (r : bufio.Reader)
    (hfile : t.file = some f) (hreader : t.reader = some r) (hsize : 0 < r.size)
    (hbuf : r.buf.length ≤ f.pos) (hpos : f.pos ≤ content.length)
    (hwin : r.buf ++ content.drop f.pos = content.drop (f.pos - r.buf.length))
    (hfuel : (content.length - (f.pos - r.buf.length)) + 1 ≤ fuel) :
    ∃ t', Tail.processLinesLoop content (fun s l => .ok (g s l, none)) fuel t h
        = .ok (t', (completeLines (content.drop (f.pos - r.buf.length))).foldl g h, .EOF) ∧
      t'.Filename = t.Filename ∧
      t'.file = some { f with pos := content.length -
        (remainder (content.drop (f.pos - r.buf.length))).length } ∧
      t'.reader = some { buf := [], size := r.size } := by
  induction fuel generalizing t h f r with
  | zero => omega
  | succ fuel ih =>
    obtain ⟨hp, hs, hsome, hnone⟩ := bufio.ReadString_spec r content f.pos '\n' hsize hpos
    have hlenA : (content.drop (f.pos - r.buf.length)).length
        = content.length - (f.pos - r.buf.length) := List.length_drop _ _
    rw [Tail.processLinesLoop, hfile]
    simp only [hreader]
    cases hsp : bufio.splitAfter '\n' (r.buf ++ content.drop f.pos) with
    | some lr =>
      obtain ⟨l, rest⟩ := lr
      obtain ⟨e1, e2, e3⟩ := hsome l rest hsp
      obtain ⟨hA, l0, hl, hl0⟩ := splitAfter_some hsp
      rw [hwin] at hA
      simp only [e2, e1]
      have hlenrest : rest.length = (r.ReadString content f.pos '\n').reader.buf.length
          + (content.length - (r.ReadString content f.pos '\n').pos) := by
        rw [← e3]; simp
      have hlenl : 1 ≤ l.length := by rw [hl]; simp
      have hlen := congrArg List.length hA
      rw [hlenA, List.length_append, hlenrest] at hlen
      have hstart : (r.ReadString content f.pos '\n').pos
          - (r.ReadString content f.pos '\n').reader.buf.length
          = (f.pos - r.buf.length) + l.length := by omega
      have hdrop : content.drop ((f.pos - r.buf.length) + l.length) = rest := by
        rw [← List.drop_drop, hA, List.drop_left]
      obtain ⟨t', ht, hn, hf', hr'⟩ := ih
        { t with lastPos := (f.pos : Int),
                 file := some { f with pos := (r.ReadString content f.pos '\n').pos },
                 reader := some (r.ReadString content f.pos '\n').reader }
        (g h l) { f with pos := (r.ReadString content f.pos '\n').pos }
        (r.ReadString content f.pos '\n').reader rfl rfl (by rw [hs]; exact hsize)
        (by show _ ≤ (r.ReadString content f.pos '\n').pos; omega) hp
        (by show _ = content.drop ((r.ReadString content f.pos '\n').pos - _)
            rw [hstart, hdrop]; exact e3)
        (by show content.length - ((r.ReadString content f.pos '\n').pos - _) + 1 ≤ fuel
            rw [hstart]; omega)
      refine ⟨t', ?_, hn, ?_, ?_⟩
      · rw [ht]
        simp only [hstart, hdrop]
        rw [hA, hl, List.append_assoc, List.singleton_append, completeLines_line _ _ hl0]
        simp
      · rw [hf']
        simp only [hstart, hdrop]
        rw [hA, hl, List.append_assoc, List.singleton_append, remainder_line _ _ hl0]
      · rw [hr', hs]
    | none =>
      obtain ⟨e1, e2, e3, e4⟩ := hnone hsp
      have hnm : '\n' ∉ content.drop (f.pos - r.buf.length) := by
        rw [← hwin]; exact splitAfter_not_mem hsp
      have hlines : completeLines (content.drop (f.pos - r.buf.length)) = [] :=
        linesFrom_of_not_mem _ hnm
      have hrem : remainder (content.drop (f.pos - r.buf.length))
          = content.drop (f.pos - r.buf.length) := by
        simpa [remainder] using remainderFrom_of_not_mem [] hnm
      simp only [e2, e1]
      rw [hlines, hrem, hlenA]
      by_cases hline : r.buf ++ content.drop f.pos = []
      · simp only [hline, ne_eq, not_true_eq_false, if_false]
        refine ⟨_, rfl, rfl, ?_, ?_⟩
        · have hz := congrArg List.length hline
          rw [hwin, hlenA] at hz
          simp only [List.length_nil] at hz
          simp only [e4]
          congr 2
          omega
        · simp only
          rw [← hs, ← e3]
      · simp only [hline, ne_eq, not_false_eq_true, if_true]
        have hoff : ¬ ((f.pos : Int) - ((r.Buffered : Nat) : Int) < 0) := by
          simp only [bufio.Reader.Buffered]; omega
        have htoNat : ((f.pos : Int) - ((r.Buffered : Nat) : Int)).toNat = f.pos - r.buf.length := by
          simp only [bufio.Reader.Buffered]; omega
        simp only [Tail.resetAtOffset, File.SeekStart, hoff, if_false, htoNat]
        refine ⟨_, rfl, rfl, ?_, ?_⟩
        · simp only
          congr 2
          omega
        · simp only [bufio.Reader.Reset, hs]

theorem ProcessLines_spec {σ : Type} (content : GoString) (g : σ → GoString → σ)
    (t : Tail) (h : σ) (f : File) (size : Nat)
    (hfile : t.file = some f) (hreader : t.reader = some { buf := [], size := size })
    (hsize : 0 < size) (hpos : f.pos ≤ content.length) :
    ∃ t', t.ProcessLines content (fun s l => .ok (g s l, none)) h
        = .ok (t', (completeLines (content.drop f.pos)).foldl g h, .EOF) ∧
      t'.Filename = t.Filename ∧
      t'.file = some { f with pos := content.length - (remainder (content.drop f.pos)).length } ∧
      t'.reader = some { buf := [], size := size } := by
  have := processLinesLoop_spec content g (t.unread content + 1) t h f { buf := [], size := size }
    hfile hreader hsize (by simp) hpos (by simp)
    (by simp [Tail.unread, hfile, hreader, bufio.Reader.Buffered])
  simpa [Tail.ProcessLines] using this

end watch

end Edgo

namespace Edgo

namespace watch

/-! ## Appends interleaved with `ProcessLines` calls -/

theorem TailWorld.run_append (w : TailWorld) (xs ys : List TailEvent) :
    w.run (xs ++ ys) = (match w.run xs with
      | .error p => .error p
      | .ok w' => w'.run ys) := by
  induction xs generalizing w with
  | nil => rfl
  | cons x xs ih =>
    simp only [List.cons_append, TailWorld.run]
    cases w.step x with
    | error p => rfl
    | ok w1 => exact ih w1

theorem TailWorld.opened_consistent (filename content : GoString) :
    (TailWorld.opened filename content).Consistent := by
  refine ⟨{ name := filepath.Clean filename, pos := 0 }, rfl, rfl, Nat.zero_le _, ?_, ?_⟩
  · simp [TailWorld.opened, completeLines, linesFrom]
  · simp [remainder, remainderFrom]

theorem TailWorld.append_consistent (w : TailWorld) (bytes : GoString) (hw : w.Consistent) :
    ({ w with content := w.content ++ bytes } : TailWorld).Consistent := by
  obtain ⟨f, hf, hr, hp, hh, hrem⟩ := hw
  refine ⟨f, hf, hr, ?_, ?_, ?_⟩
  · simp only [List.length_append]; omega
  · simp only [List.take_append_of_le_length hp]; exact hh
  · simp only [List.take_append_of_le_length hp]; exact hrem

/-- A call hands out the complete lines of the unread bytes and leaves the
offset at the start of the remainder. -/
theorem TailWorld.call_spec (w : TailWorld) (hw : w.Consistent) :
    ∃ w', w.step .processLines = .ok w' ∧ w'.Consistent ∧ w'.content = w.content ∧
      w'.handed = w.handed ++ [completeLines (w.content.drop w.tail.offset)] ∧
      w'.handed.flatten = completeLines w.content ∧
      remainder (w.content.drop w.tail.offset) = remainder w.content ∧
      w'.tail.offset + (remainder w.content).length = w.content.length ∧
      w'.content.drop w'.tail.offset = remainder w.content := by
  obtain ⟨f, hf, hr, hp, hh, hrem⟩ := hw
  obtain ⟨t', ht, _, hf', hr'⟩ := ProcessLines_spec w.content
    (fun (result : List GoString) l => result ++ [l]) w.tail [] f bufio.defaultBufSize hf hr
    (by decide) hp
  have hfold : ∀ (ls acc : List GoString),
      List.foldl (fun (result : List GoString) l => result ++ [l]) acc ls = acc ++ ls := by
    intro ls
    induction ls with
    | nil => simp
    | cons x xs ih => intro acc; simp [ih]
  rw [hfold] at ht
  have hoff : w.tail.offset = f.pos := by simp [Tail.offset, hf]
  have hsplit : w.content.take f.pos ++ w.content.drop f.pos = w.content :=
    List.take_append_drop _ _
  have hlines : completeLines w.content
      = completeLines (w.content.take f.pos) ++ completeLines (w.content.drop f.pos) := by
    conv_lhs => rw [← hsplit]
    rw [completeLines_append, hrem]; rfl
  have hremd : remainder (w.content.drop f.pos) = remainder w.content := by
    conv_rhs => rw [← hsplit]
    rw [remainder_append, hrem]; rfl
  have hdecomp := flatten_completeLines w.content
  have hlen : (completeLines w.content).flatten.length + (remainder w.content).length
      = w.content.length := by
    conv_rhs => rw [← hdecomp]
    simp
  have htake : w.content.take (w.content.length - (remainder w.content).length)
      = (completeLines w.content).flatten := by
    have : w.content.length - (remainder w.content).length
        = (completeLines w.content).flatten.length := by omega
    rw [this]
    have hk := List.take_left (completeLines w.content).flatten (remainder w.content)
    rw [hdecomp] at hk
    exact hk
  have hdropr : w.content.drop (w.content.length - (remainder w.content).length)
      = remainder w.content := by
    have : w.content.length - (remainder w.content).length
        = (completeLines w.content).flatten.length := by omega
    rw [this]
    have hk := List.drop_left (completeLines w.content).flatten (remainder w.content)
    rw [hdecomp] at hk
    exact hk
  refine ⟨{ w with tail := t', handed := w.handed ++ [completeLines (w.content.drop f.pos)] },
    ?_, ?_, rfl, ?_, ?_, ?_, ?_, ?_⟩
  · simp only [TailWorld.step, Tail.ReadLines, ht, List.nil_append]
  · refine ⟨_, hf', hr', ?_, ?_, ?_⟩
    · simp only; omega
    · simp only [hremd, htake]
      rw [(remainder_flatten_completeLines w.content).2, List.flatten_append, hh, hlines]
      simp
    · simp only [hremd, htake]
      exact (remainder_flatten_completeLines w.content).1
  · simp only [hoff]
  · simp only [List.flatten_append, hh, hlines]
    simp
  · rw [hoff, hremd]
  · simp only [Tail.offset, hf', hremd]; omega
  · simp only [Tail.offset, hf', hremd]
    exact hdropr

theorem TailWorld.run_consistent (w : TailWorld) (evs : List TailEvent) (hw : w.Consistent) :
    ∃ w', w.run evs = .ok w' ∧ w'.Consistent := by
  induction evs generalizing w with
  | nil => exact ⟨w, rfl, hw⟩
  | cons ev evs ih =>
    cases ev with
    | append bytes =>
      obtain ⟨w', h, hc⟩ := ih _ (TailWorld.append_consistent w bytes hw)
      exact ⟨w', by simpa [TailWorld.run, TailWorld.step] using h, hc⟩
    | processLines =>
      obtain ⟨w1, h1, hc1, _⟩ := TailWorld.call_spec w hw
      obtain ⟨w', h, hc⟩ := ih w1 hc1
      exact ⟨w', by simpa [TailWorld.run, h1] using h, hc⟩

/-- While no newline arrives, calls hand out nothing and leave the offset. -/
theorem TailWorld.run_idle (w : TailWorld) (mid : List TailEvent) (hw : w.Consistent)
    (hun : '\n' ∉ w.content.drop w.tail.offset) (hmid : '\n' ∉ appendedBytes mid) :
    ∃ w', w.run mid = .ok w' ∧ w'.Consistent ∧ w'.tail.offset = w.tail.offset ∧
      w'.content = w.content ++ appendedBytes mid ∧ w'.handed = w.handed ++ idleCalls mid := by
  induction mid generalizing w with
  | nil => exact ⟨w, rfl, hw, rfl, by simp [appendedBytes], by simp [idleCalls]⟩
  | cons ev evs ih =>
    have hoffle : w.tail.offset ≤ w.content.length := by
      obtain ⟨f, hf, _, hp, _⟩ := hw
      simpa [Tail.offset, hf] using hp
    cases ev with
    | append bytes =>
      have hb : '\n' ∉ bytes := fun h => hmid (by simp [appendedBytes, TailEvent.bytes, h])
      have he : '\n' ∉ appendedBytes evs := fun h =>
        hmid (by
          simp only [appendedBytes, List.map_cons, List.flatten_cons, List.mem_append]
          exact Or.inr h)
      obtain ⟨w', h, hc, ho, hcont, hh⟩ := ih { w with content := w.content ++ bytes }
        (TailWorld.append_consistent w bytes hw)
        (by
          show '\n' ∉ (w.content ++ bytes).drop w.tail.offset
          rw [List.drop_append_of_le_length hoffle]
          simp [hun, hb])
        he
      refine ⟨w', by simpa [TailWorld.run, TailWorld.step] using h, hc, ho, ?_, ?_⟩
      · rw [hcont]; simp [appendedBytes, TailEvent.bytes]
      · rw [hh]; simp [idleCalls]
    | processLines =>
      have he : '\n' ∉ appendedBytes evs := by
        simpa [appendedBytes, TailEvent.bytes] using hmid
      obtain ⟨w1, h1, hc1, hcont1, hh1, _, hrem1, hoff1, hdrop1⟩ := TailWorld.call_spec w hw
      have hremeq : remainder w.content = w.content.drop w.tail.offset := by
        rw [← hrem1]
        simpa [remainder] using remainderFrom_of_not_mem [] hun
      have hoffeq : w1.tail.offset = w.tail.offset := by
        have := congrArg List.length hremeq
        rw [List.length_drop] at this
        omega
      obtain ⟨w', h, hc, ho, hcont, hh⟩ := ih w1 hc1
        (by rw [hdrop1]; exact remainder_not_mem _) he
      refine ⟨w', by simpa [TailWorld.run, h1] using h, hc, by rw [ho, hoffeq], ?_, ?_⟩
      · rw [hcont, hcont1]; simp [appendedBytes, TailEvent.bytes]
      · rw [hh, hh1, linesFrom_of_not_mem _ hun |> fun e => (e : completeLines _ = [])]
        simp [idleCalls]

end watch

end Edgo

namespace Edgo

namespace watch

/-- C1. A tail opened at offset 0 on a file that only grows by appends: after
any sequence of appends and `ProcessLines` calls (the handler recording each
line and returning no error), one more call brings the lines handed out over
all calls, in order, to exactly the newline-terminated lines of the bytes then
in the file. The unterminated remainder is not among them and the file offset is
left at its start. Whatever appends without a newline and calls follow, those
calls hand out nothing; the first call after an append that brings the newline
hands out the remainder, completed, as one line, followed by the further
complete lines of that append. -/
theorem tail_hands_out_every_line_exactly_once (filename content0 : GoString)
    (evs : List TailEvent) :
    ∃ w w', (TailWorld.opened filename content0).run evs = .ok w ∧
      w.step .processLines = .ok w' ∧
      w'.handed.flatten = completeLines w.content ∧
      w'.handed.flatten.flatten ++ remainder w.content = w.content ∧
      w'.tail.offset + (remainder w.content).length = w.content.length ∧
      ∀ (mid : List TailEvent) (a b : GoString), '\n' ∉ appendedBytes mid → '\n' ∉ a →
        ∃ w'', w'.run (mid ++ [.append (a ++ '\n' :: b), .processLines]) = .ok w'' ∧
          w''.handed = w'.handed ++ idleCalls mid ++
            [(remainder w.content ++ appendedBytes mid ++ a ++ ['\n']) :: completeLines b] := by
  obtain ⟨w, hrun, hw⟩ := TailWorld.run_consistent (TailWorld.opened filename content0) evs
    (TailWorld.opened_consistent filename content0)
  obtain ⟨w', hstep, hw', hcont, _, hall, _, hoff, hdrop⟩ := TailWorld.call_spec w hw
  refine ⟨w, w', hrun, hstep, hall, ?_, hoff, ?_⟩
  · rw [hall]; exact flatten_completeLines w.content
  · intro mid a b hmid ha
    obtain ⟨w2, hrun2, hw2, hoff2, hcont2, hh2⟩ := TailWorld.run_idle w' mid hw'
      (by rw [hdrop]; exact remainder_not_mem _) hmid
    have hw3 := TailWorld.append_consistent w2 (a ++ '\n' :: b) hw2
    obtain ⟨w4, hstep4, _, _, hh4, _⟩ := TailWorld.call_spec _ hw3
    have hle : w'.tail.offset ≤ w'.content.length := by rw [hcont]; omega
    have hunread : (w2.content ++ (a ++ '\n' :: b)).drop w2.tail.offset
        = (remainder w.content ++ appendedBytes mid ++ a) ++ '\n' :: b := by
      rw [hoff2, hcont2, List.append_assoc, List.drop_append_of_le_length hle, hdrop]
      simp
    have hnl : '\n' ∉ remainder w.content ++ appendedBytes mid ++ a := by
      simp [remainder_not_mem, hmid, ha]
    refine ⟨w4, ?_, ?_⟩
    · rw [TailWorld.run_append, hrun2]
      have hs1 : w2.step (.append (a ++ '\n' :: b))
          = .ok { w2 with content := w2.content ++ (a ++ '\n' :: b) } := rfl
      simp only [TailWorld.run, hs1, hstep4]
    · rw [hh4]
      simp only [hunread, completeLines_line _ _ hnl, hh2]

end watch

end Edgo

namespace Edgo

namespace watch

/-- A run at concrete inputs: the file holds one line and the start of a
second; a call hands out the first line only and leaves the offset at 3; after
an append that ends the second line and starts a third, a call hands out the
second line whole; a further call hands out nothing. -/
theorem tail_run_example :
    (TailWorld.opened "j.log".toList "ab\ncd".toList).run
        [.processLines, .append "e\nf".toList, .processLines, .processLines]
      = .ok { content := "ab\ncde\nf".toList,
              tail := { Filename := "j.log".toList,
                        file := some { name := "j.log".toList, pos := 7 },
                        reader := some { buf := [], size := 4096 },
                        lastPos := 7 },
              handed := [["ab\n".toList], ["cde\n".toList], []] } := by
  decide

end watch

end Edgo

namespace Edgo

/-! ## `strings.Compare` is a total preorder -/

namespace strings

theorem Compare_self (a : GoString) : Compare a a = 0 := by
  induction a with
  | nil => rfl
  | cons x xs ih => simp [Compare, ih]

theorem Compare_le_trans (a b c : GoString) (hab : Compare a b ≤ 0) (hbc : Compare b c ≤ 0) :
    Compare a c ≤ 0 := by
  induction a generalizing b c with
  | nil => cases c <;> simp [Compare]
  | cons x xs ih =>
    cases b with
    | nil => simp [Compare] at hab
    | cons y ys =>
      cases c with
      | nil => simp [Compare] at hbc
      | cons z zs =>
        simp only [Compare] at hab hbc ⊢
        split_ifs at hab hbc ⊢ <;> first
          | omega
          | exact ih _ _ hab hbc

end strings

/-! ## The journal selection only moves forward -/

theorem maybeSetJournalFile_step (ew : EliteWatcher) (t : watch.Tail)
    (canOpen : GoString → Bool) (q : GoString) (ht : ew.tail = some t)
    (hq : filepath.Clean q = q) :
    ∃ t', (ew.maybeSetJournalFile canOpen q).tail = some t' ∧
      strings.Compare (strings.ToLower (filepath.Base t.Filename))
        (strings.ToLower (filepath.Base t'.Filename)) ≤ 0 := by
  simp only [EliteWatcher.maybeSetJournalFile, ht]
  by_cases hc : strings.Compare (strings.ToLower (filepath.Base t.Filename))
      (strings.ToLower (filepath.Base q)) ≥ 0
  · rw [if_pos hc]
    exact ⟨t, ht, by rw [strings.Compare_self]⟩
  · rw [if_neg hc]
    simp only [EliteWatcher.openJournal, watch.TailFile]
    by_cases ho : canOpen (filepath.Clean q) = true
    · simp only [ho, if_true]
      refine ⟨watch.Tail.opened q, rfl, ?_⟩
      simp only [watch.Tail.opened, hq]
      omega
    · simp only [ho]
      refine ⟨t.Close, rfl, ?_⟩
      simp only [watch.Tail.Close]
      rw [strings.Compare_self]

theorem maybeSetAll_monotone (steps : List ((GoString → Bool) × GoString))
    (ew : EliteWatcher) (t : watch.Tail) (ht : ew.tail = some t)
    (hclean : ∀ s ∈ steps, filepath.Clean s.2 = s.2) :
    ∃ t', (ew.maybeSetAll steps).tail = some t' ∧
      strings.Compare (strings.ToLower (filepath.Base t.Filename))
        (strings.ToLower (filepath.Base t'.Filename)) ≤ 0 := by
  induction steps generalizing ew t with
  | nil => exact ⟨t, ht, by rw [strings.Compare_self]⟩
  | cons s rest ih =>
    obtain ⟨canOpen, q⟩ := s
    obtain ⟨t1, h1, hle1⟩ := maybeSetJournalFile_step ew t canOpen q ht
      (hclean (canOpen, q) (by simp))
    obtain ⟨t2, h2, hle2⟩ := ih (ew.maybeSetJournalFile canOpen q) t1 h1
      (fun s hs => hclean s (by simp [hs]))
    exact ⟨t2, h2, strings.Compare_le_trans _ _ _ hle1 hle2⟩

/-- Why the candidates are taken as the callers pass them. `TailFile` stores the
cleaned name while the comparison reads the base name of the name as given: the
two differ on a name that is not cleaned. From the journal `!a`, the name `!/.`,
which no caller passes, has the base name `.` and is accepted, and the tail
then holds the name `!`. -/
theorem maybeSetJournalFile_base_name_can_decrease :
    (watcherOn "!a".toList).selectedBase = some "!a".toList ∧
    ((watcherOn "!a".toList).maybeSetJournalFile allFiles "!/.".toList).selectedBase
      = some "!".toList ∧
    strings.Compare "!a".toList "!".toList = 1 := by
  decide

end Edgo

namespace Edgo

/-! ## `filepath.Clean` returns a path that it leaves as it is -/

namespace strings

theorem Split_of_not_mem {sep : Char} {x : GoString} (h : sep ∉ x) : Split sep x = [x] := by
  induction x with
  | nil => rfl
  | cons c cs ih =>
    have hc : c ≠ sep := fun e => h (by simp [e])
    have hcs : sep ∉ cs := fun e => h (by simp [e])
    simp [Split, hc, ih hcs]

theorem Split_append_sep {sep : Char} {x : GoString} (t : GoString) (h : sep ∉ x) :
    Split sep (x ++ sep :: t) = x :: Split sep t := by
  induction x with
  | nil => simp [Split]
  | cons c cs ih =>
    have hc : c ≠ sep := fun e => h (by simp [e])
    have hcs : sep ∉ cs := fun e => h (by simp [e])
    simp [Split, hc, ih hcs]

theorem Split_Join {sep : Char} (xs : List GoString) (hne : xs ≠ [])
    (h : ∀ x ∈ xs, sep ∉ x) : Split sep (Join sep xs) = xs := by
  induction xs with
  | nil => exact absurd rfl hne
  | cons x rest ih =>
    cases rest with
    | nil => simpa [Join] using Split_of_not_mem (h x (by simp))
    | cons y rest' =>
      rw [Join, Split_append_sep _ (h x (by simp)),
        ih (by simp) (fun z hz => h z (List.mem_cons_of_mem _ hz))]

theorem not_mem_of_mem_Split {sep : Char} (s : GoString) :
    ∀ x ∈ Split sep s, sep ∉ x := by
  induction s with
  | nil => simp [Split]
  | cons c cs ih =>
    by_cases hc : c = sep
    · simp only [Split, hc, if_true, List.mem_cons]
      rintro x (rfl | hx)
      · simp
      · exact ih x hx
    · simp only [Split, hc, if_false]
      cases hs : Split sep cs with
      | nil => simp [Ne.symm hc]
      | cons y ys =>
        rw [hs] at ih
        simp only [List.mem_cons]
        rintro x (rfl | hx)
        · have := ih y (by simp)
          simp [this, Ne.symm hc]
        · exact ih x (by simp [hx])

theorem Join_head_ne {sep : Char} (x : GoString) (xs : List GoString) (hx : x ≠ []) :
    (Join sep (x :: xs)).head? = x.head? := by
  cases x with
  | nil => exact absurd rfl hx
  | cons a as => cases xs <;> simp [Join]

end strings

namespace filepath

theorem cleanStep_name (rooted : Bool) (out : List GoString) (x : GoString) (h : IsName x) :
    cleanStep rooted out x = x :: out := by
  simp [cleanStep, h.1, h.2.1, h.2.2.1]

/-- The stack of `Clean`, innermost first: names, then `..` elements, the
latter only in a path that is not rooted. -/
theorem cleanStep_stack (rooted : Bool) (elems : List GoString)
    (helems : ∀ x ∈ elems, Separator ∉ x) (names : List GoString) (k : Nat)
    (hnames : ∀ x ∈ names, IsName x) (hk : rooted = true → k = 0) :
    ∃ names' k', elems.foldl (cleanStep rooted) (names ++ List.replicate k ['.', '.'])
        = names' ++ List.replicate k' ['.', '.'] ∧
      (∀ x ∈ names', IsName x) ∧ (rooted = true → k' = 0) := by
  induction elems generalizing names k with
  | nil => exact ⟨names, k, rfl, hnames, hk⟩
  | cons e rest ih =>
    have hrest : ∀ x ∈ rest, Separator ∉ x := fun x hx => helems x (List.mem_cons_of_mem _ hx)
    have he : Separator ∉ e := helems e (by simp)
    simp only [List.foldl_cons]
    by_cases h1 : e = [] ∨ e = ['.']
    · have : cleanStep rooted (names ++ List.replicate k ['.', '.']) e
          = names ++ List.replicate k ['.', '.'] := by simp [cleanStep, h1]
      rw [this]
      exact ih hrest names k hnames hk
    · by_cases h2 : e = ['.', '.']
      · cases names with
        | nil =>
          cases k with
          | zero =>
            cases hr : rooted with
            | true =>
              have : cleanStep true ([] ++ List.replicate 0 ['.', '.']) e = [] ++ List.replicate 0 ['.', '.'] := by
                simp [cleanStep, h2]
              rw [this]
              exact hr ▸ ih hrest [] 0 (by simp) (by simp)
            | false =>
              have : cleanStep false ([] ++ List.replicate 0 ['.', '.']) e = [] ++ List.replicate 1 ['.', '.'] := by
                simp [cleanStep, h2]
              rw [this]
              exact hr ▸ ih hrest [] 1 (by simp) (by simp [hr])
          | succ k =>
            have : cleanStep rooted ([] ++ List.replicate (k + 1) ['.', '.']) e
                = [] ++ List.replicate (k + 2) ['.', '.'] := by
              simp [cleanStep, h2, List.replicate_succ]
            rw [this]
            exact ih hrest [] (k + 2) (by simp) (fun hr => absurd (hk hr) (by simp))
        | cons top below =>
          have htop : top ≠ ['.', '.'] := (hnames top (by simp)).2.2.1
          have : cleanStep rooted ((top :: below) ++ List.replicate k ['.', '.']) e
              = below ++ List.replicate k ['.', '.'] := by
            simp [cleanStep, h2, htop]
          rw [this]
          exact ih hrest below k (fun x hx => hnames x (List.mem_cons_of_mem _ hx)) hk
      · have hname : IsName e := by
          simp only [not_or] at h1
          exact ⟨h1.1, h1.2, h2, he⟩
        rw [cleanStep_name _ _ _ hname]
        exact ih hrest (e :: names) k
          (by
            intro x hx
            rcases List.mem_cons.mp hx with rfl | hx
            · exact hname
            · exact hnames x hx) hk

/-- Scanning the `..` elements and then the names of a cleaned path puts
each of them on the stack. -/
theorem cleanStep_kept (rooted : Bool) (names : List GoString) (k : Nat)
    (hnames : ∀ x ∈ names, IsName x) (hk : rooted = true → k = 0) :
    (List.replicate k ['.', '.'] ++ names.reverse).foldl (cleanStep rooted) []
      = names ++ List.replicate k ['.', '.'] := by
  have hdots : ∀ k : Nat, (rooted = true → k = 0) →
      (List.replicate k ['.', '.']).foldl (cleanStep rooted) [] = List.replicate k ['.', '.'] := by
    intro k
    induction k with
    | zero => intro _; rfl
    | succ n ih =>
      intro hk
      have hr : rooted = false := by
        cases rooted with
        | false => rfl
        | true => exact absurd (hk rfl) (by simp)
      subst hr
      rw [List.replicate_succ', List.foldl_append, ih (by simp)]
      cases n with
      | zero => simp [cleanStep]
      | succ m =>
        have e2 : List.replicate (m + 1) (['.', '.'] : GoString)
            = ['.', '.'] :: List.replicate m ['.', '.'] := rfl
        have e3 : List.replicate (m + 1) (['.', '.'] : GoString) ++ [['.', '.']]
            = ['.', '.'] :: ['.', '.'] :: List.replicate m ['.', '.'] := by
          rw [← List.replicate_succ']; rfl
        rw [e3]
        simp only [List.foldl_cons, List.foldl_nil]
        rw [e2]
        simp [cleanStep]
  have hpush : ∀ (ns : List GoString) (st : List GoString), (∀ x ∈ ns, IsName x) →
      ns.foldl (cleanStep rooted) st = ns.reverse ++ st := by
    intro ns
    induction ns with
    | nil => intro st _; rfl
    | cons n rest ih =>
      intro st h
      rw [List.foldl_cons, cleanStep_name _ _ _ (h n (by simp)),
        ih _ (fun x hx => h x (List.mem_cons_of_mem _ hx))]
      simp
  rw [List.foldl_append, hdots k hk, hpush _ _ (by simpa using hnames)]
  simp

end filepath

end Edgo

namespace Edgo

namespace filepath

theorem Clean_idempotent (p : GoString) : Clean (Clean p) = Clean p := by
  obtain ⟨names, k, hstack, hnames, hk⟩ := cleanStep_stack (IsAbs p)
    (strings.Split Separator p) (strings.not_mem_of_mem_Split p) [] 0 (by simp) (by simp)
  simp only [List.replicate_zero, List.append_nil] at hstack
  have hkept : ((strings.Split Separator p).foldl (cleanStep (IsAbs p)) []).reverse
      = List.replicate k ['.', '.'] ++ names.reverse := by
    rw [hstack]; simp
  have hsepfree : ∀ x ∈ List.replicate k (['.', '.'] : GoString) ++ names.reverse,
      Separator ∉ x := by
    intro x hx
    rcases List.mem_append.mp hx with h | h
    · rw [(List.mem_replicate.mp h).2]; decide
    · exact (hnames x (by simpa using h)).2.2.2
  have hnonempty : ∀ x ∈ List.replicate k (['.', '.'] : GoString) ++ names.reverse, x ≠ [] := by
    intro x hx
    rcases List.mem_append.mp hx with h | h
    · rw [(List.mem_replicate.mp h).2]; decide
    · exact (hnames x (by simpa using h)).1
  have hrescan : ∀ rooted : Bool, rooted = IsAbs p →
      ((List.replicate k (['.', '.'] : GoString) ++ names.reverse).foldl (cleanStep rooted) []).reverse
        = List.replicate k ['.', '.'] ++ names.reverse := by
    intro rooted hr
    rw [cleanStep_kept rooted names k hnames (by rw [hr]; exact hk)]
    simp
  cases hroot : IsAbs p with
  | true =>
    have hk0 : k = 0 := hk hroot
    subst hk0
    simp only [List.replicate_zero, List.nil_append] at hkept hsepfree hrescan
    have hC : Clean p = Separator :: strings.Join Separator names.reverse := by
      simp only [Clean]
      rw [hkept, hroot]
      simp
    rw [hC]
    have habs : IsAbs (Separator :: strings.Join Separator names.reverse) = true := by
      simp [IsAbs]
    simp only [Clean, habs, if_true]
    congr 1
    by_cases hnil : names.reverse = []
    · rw [hnil]; decide
    · have hsplit : strings.Split Separator (Separator :: strings.Join Separator names.reverse)
          = [] :: names.reverse := by
        rw [strings.Split, if_pos rfl, strings.Split_Join _ hnil hsepfree]
      rw [hsplit, List.foldl_cons]
      have : cleanStep true [] [] = [] := by simp [cleanStep]
      rw [this, hrescan true hroot.symm]
  | false =>
    by_cases hbody : strings.Join Separator (List.replicate k ['.', '.'] ++ names.reverse) = []
    · have hC : Clean p = ['.'] := by
        simp only [Clean]
        rw [hkept, hbody, hroot]
        simp
      rw [hC]; decide
    · have hC : Clean p = strings.Join Separator (List.replicate k ['.', '.'] ++ names.reverse) := by
        simp only [Clean]
        rw [hkept, hroot]
        simp [hbody]
      have hne : List.replicate k (['.', '.'] : GoString) ++ names.reverse ≠ [] := by
        intro h
        rw [h] at hbody
        exact hbody rfl
      have habs : IsAbs (strings.Join Separator
          (List.replicate k ['.', '.'] ++ names.reverse)) = false := by
        cases hl : List.replicate k (['.', '.'] : GoString) ++ names.reverse with
        | nil => exact absurd hl hne
        | cons x xs =>
          have hx : x ∈ List.replicate k (['.', '.'] : GoString) ++ names.reverse := by
            rw [hl]; simp
          have hx1 := hnonempty x hx
          have hx2 := hsepfree x hx
          simp only [IsAbs]
          rw [strings.Join_head_ne x xs hx1]
          cases x with
          | nil => exact absurd rfl hx1
          | cons c cs =>
            have : c ≠ Separator := fun e => hx2 (by simp [e])
            simp [this]
      rw [hC]
      simp only [Clean, habs]
      rw [strings.Split_Join _ hne hsepfree, hrescan false hroot.symm]
      simp [hbody]

/-- A path returned by `filepath.Abs` without error is a cleaned path, unless
it is empty (an empty working directory and an empty path). -/
theorem Abs_clean (wd : Except GoError GoString) (path : GoString)
    (hne : (Abs wd path).1 ≠ []) : Clean (Abs wd path).1 = (Abs wd path).1 := by
  simp only [Abs] at hne ⊢
  by_cases habs : IsAbs path = true
  · simp only [habs, if_true]
    exact Clean_idempotent path
  · simp only [habs] at hne ⊢
    cases wd with
    | error e => simp at hne
    | ok d =>
      simp only [Join] at hne ⊢
      cases hd : List.dropWhile (· = []) [d, path] with
      | nil => simp [hd] at hne
      | cons x xs => exact Clean_idempotent _

end filepath

end Edgo

namespace Edgo

namespace watch

/-! ## The directory watcher -/

theorem op_bits_of_lt : ∀ op : Nat, op < 32 →
    op &&& DirChild ≠ DirChild ∧ (op ||| DirChild) &&& DirChild = DirChild ∧
    (op ||| DirChild) &&& Create = op &&& Create ∧
    (op ||| DirChild) &&& Write = op &&& Write ∧
    (op ||| DirChild) &&& Remove = op &&& Remove ∧
    (op ||| DirChild) &&& Rename = op &&& Rename ∧
    (op ||| DirChild) &&& Chmod = op &&& Chmod := by
  decide

theorem fsnotify_bits_lt (op : fsnotify.Op) : op.bits < 32 := by
  obtain ⟨c, wr, rm, rn, ch⟩ := op
  cases c <;> cases wr <;> cases rm <;> cases rn <;> cases ch <;> decide

/-- C3. A round of `RunLoop` for a notification `(name, op)`: with the lock
free an event is published; and the event published carries the absolute path,
has its `DirChild` bit set if and only if that path is not in the registration
set while its parent directory is, and has each of the bits `Create`, `Write`,
`Remove`, `Rename`, `Chmod` as the notification has it. -/
theorem runLoopEvent_dirChild_iff (w : Watcher) (wd : Except GoError GoString)
    (name : GoString) (op : fsnotify.Op) :
    (w.locked = false → ∃ ev, w.runLoopEvent wd name op = some ev) ∧
    ∀ ev, w.runLoopEvent wd name op = some ev →
      ev.Name = (filepath.Abs wd name).1 ∧
      (ev.Op &&& DirChild = DirChild ↔
        ((filepath.Abs wd name).1 ∉ w.watchset ∧
          filepath.Dir (filepath.Abs wd name).1 ∈ w.watchset)) ∧
      ev.Op &&& Create = op.bits &&& Create ∧ ev.Op &&& Write = op.bits &&& Write ∧
      ev.Op &&& Remove = op.bits &&& Remove ∧ ev.Op &&& Rename = op.bits &&& Rename ∧
      ev.Op &&& Chmod = op.bits &&& Chmod := by
  obtain ⟨h0, h1, h2, h3, h4, h5, h6⟩ := op_bits_of_lt op.bits (fsnotify_bits_lt op)
  constructor
  · intro hlock
    simp only [Watcher.runLoopEvent, hlock]
    by_cases hok : (filepath.Abs wd name).1 ∈ w.watchset
    · exact ⟨{ Name := (filepath.Abs wd name).1, Op := op.bits }, by simp [hok]⟩
    · by_cases hdok : filepath.Dir (filepath.Abs wd name).1 ∈ w.watchset
      · exact ⟨{ Name := (filepath.Abs wd name).1, Op := op.bits ||| DirChild },
          by simp [hok, hdok]⟩
      · exact ⟨{ Name := (filepath.Abs wd name).1, Op := op.bits }, by simp [hok, hdok]⟩
  · intro ev hev
    by_cases hlock : w.locked = true
    · simp [Watcher.runLoopEvent, hlock] at hev
    · simp only [Watcher.runLoopEvent, hlock] at hev
      by_cases hok : (filepath.Abs wd name).1 ∈ w.watchset
      · simp only [hok, decide_True, if_true, Bool.false_eq_true, if_false,
          Option.some.injEq] at hev
        subst hev
        refine ⟨rfl, ?_, rfl, rfl, rfl, rfl, rfl⟩
        simp [hok, h0]
      · by_cases hdok : filepath.Dir (filepath.Abs wd name).1 ∈ w.watchset
        · simp only [hok, hdok, decide_True, decide_False, if_true, Bool.false_eq_true,
            if_false, Option.some.injEq] at hev
          subst hev
          refine ⟨rfl, ?_, h2, h3, h4, h5, h6⟩
          simp [hok, hdok, h1]
        · simp only [hok, hdok, decide_False, Bool.false_eq_true, if_false,
            Option.some.injEq] at hev
          subst hev
          refine ⟨rfl, ?_, rfl, rfl, rfl, rfl, rfl⟩
          simp [hok, hdok, h0]

/-- C3 at concrete inputs: with `/d/j.log` and `/e` registered, a `Write` on
`/d/j.log`, registered itself, is published without `DirChild`, and a `Write`
on `/e/j.log`, covered only through its directory, with `DirChild`. -/
theorem runLoopEvent_dirChild_iff_witness :
    ({ MakeWatcher with watchset := ["/d/j.log".toList, "/e".toList] } : Watcher).runLoopEvent
        (.ok "/".toList) "/d/j.log".toList fsnotify.Write
      = some { Name := "/d/j.log".toList, Op := Write } ∧
    ({ MakeWatcher with watchset := ["/d/j.log".toList, "/e".toList] } : Watcher).runLoopEvent
        (.ok "/".toList) "/e/j.log".toList fsnotify.Write
      = some { Name := "/e/j.log".toList, Op := Write ||| DirChild } ∧
    (Write ||| DirChild) &&& DirChild = DirChild ∧
    ((filepath.Abs (.ok "/".toList) "/e/j.log".toList).1 ∉
        ({ MakeWatcher with watchset := ["/d/j.log".toList, "/e".toList] } : Watcher).watchset ∧
      filepath.Dir (filepath.Abs (.ok "/".toList) "/e/j.log".toList).1 ∈
        ({ MakeWatcher with watchset := ["/d/j.log".toList, "/e".toList] } : Watcher).watchset) := by
  have h := (runLoopEvent_dirChild_iff
    ({ MakeWatcher with watchset := ["/d/j.log".toList, "/e".toList] } : Watcher)
    (.ok "/".toList) "/e/j.log".toList fsnotify.Write).2
    { Name := "/e/j.log".toList, Op := Write ||| DirChild } (by decide)
  exact ⟨by decide, by decide, by decide, h.2.1.mp (by decide)⟩

/-- C4. From a watcher whose lock is free and whose set lacks the path,
`AddWatch` called twice with the same path, the registration answered without
error: both calls return `nil`; the first sends the absolute path once on the
add queue; the second sends nothing and leaves the set as it is; and the set
holds the path exactly once. -/
theorem addWatch_twice_registers_once (w : Watcher) (wd : Except GoError GoString)
    (osAdd osAdd' : GoString → Option GoError) (p : GoString)
    (hlock : w.locked = false) (habs : (filepath.Abs wd p).2 = none)
    (hnew : (filepath.Abs wd p).1 ∉ w.watchset)
    (hos : osAdd (filepath.Abs wd p).1 = none) :
    ∃ w1 w2, w.AddWatch wd osAdd p = some (w1, none) ∧
      w1.AddWatch wd osAdd' p = some (w2, none) ∧
      w1.addSent = w.addSent ++ [(filepath.Abs wd p).1] ∧
      w2.addSent = w1.addSent ∧ w2.watchset = w1.watchset ∧
      w2.watchset.count (filepath.Abs wd p).1 = 1 := by
  cases hA : filepath.Abs wd p with
  | mk a e =>
    rw [hA] at habs hnew hos
    simp only at habs hnew hos
    subst habs
    have hcount : (mapSet w.watchset a).count a = 1 := by
      simp only [mapSet, if_neg hnew]
      rw [List.count_cons_self, List.count_eq_zero_of_not_mem hnew]
    have hmem : a ∈ mapSet w.watchset a := by simp [mapSet, hnew]
    refine ⟨{ w with watchset := mapSet w.watchset a, locked := false,
                      addSent := w.addSent ++ [a] },
            { w with watchset := mapSet w.watchset a, locked := true,
                      addSent := w.addSent ++ [a] }, ?_, ?_, rfl, rfl, rfl, hcount⟩
    · simp [Watcher.AddWatch, hA, hlock, hnew, hos]
    · simp [Watcher.AddWatch, hA, hmem]

/-- C4 at a concrete input: `/d` added twice to a fresh watcher. -/
theorem addWatch_twice_registers_once_witness :
    ∃ w1 w2, MakeWatcher.AddWatch (.ok "/".toList) (fun _ => none) "/d".toList = some (w1, none) ∧
      w1.AddWatch (.ok "/".toList) (fun _ => none) "/d".toList = some (w2, none) ∧
      w1.addSent = MakeWatcher.addSent ++ [(filepath.Abs (.ok "/".toList) "/d".toList).1] ∧
      w2.addSent = w1.addSent ∧ w2.watchset = w1.watchset ∧
      w2.watchset.count (filepath.Abs (.ok "/".toList) "/d".toList).1 = 1 :=
  addWatch_twice_registers_once MakeWatcher (.ok "/".toList) (fun _ => none) (fun _ => none)
    "/d".toList rfl (by decide) (by decide) rfl

/-- C5, the code at a registration that fails. On a fresh watcher the
registration of `/nope` is answered with an error and `AddWatch` returns it; yet
the set, empty before the call, then holds `/nope`, so a second `AddWatch` of
`/nope` returns `nil`, sends nothing on the add queue and leaves `/nope`
without a watch. -/
theorem addWatch_failure_keeps_path :
    MakeWatcher.AddWatch (.ok "/".toList) (fun _ => some (.os "no such file".toList))
        "/nope".toList
      = some ({ watchset := ["/nope".toList], locked := false, addSent := ["/nope".toList],
                removeSent := [] }, some (.os "no such file".toList)) ∧
    MakeWatcher.watchset = [] ∧
    ({ watchset := ["/nope".toList], locked := false, addSent := ["/nope".toList],
       removeSent := [] } : Watcher).AddWatch (.ok "/".toList)
        (fun _ => some (.os "no such file".toList)) "/nope".toList
      = some ({ watchset := ["/nope".toList], locked := true, addSent := ["/nope".toList],
                removeSent := [] }, none) := by
  decide

/-- What `AddWatch` does, in general, when the registration fails. From a
watcher whose lock is free and whose set lacks the path, when the registration
issued by `AddWatch` is answered with an error, `AddWatch` returns that error;
the path, put into the set before the request, stays in it; and a later
`AddWatch` of the same path returns `nil` without sending a request. -/
theorem addWatch_failure_returns_error (w : Watcher) (wd : Except GoError GoString)
    (osAdd osAdd' : GoString → Option GoError) (p : GoString) (e : GoError)
    (hlock : w.locked = false) (habs : (filepath.Abs wd p).2 = none)
    (hnew : (filepath.Abs wd p).1 ∉ w.watchset)
    (hos : osAdd (filepath.Abs wd p).1 = some e) :
    ∃ w1 w2, w.AddWatch wd osAdd p = some (w1, some e) ∧
      w1.addSent = w.addSent ++ [(filepath.Abs wd p).1] ∧
      (filepath.Abs wd p).1 ∈ w1.watchset ∧
      w1.AddWatch wd osAdd' p = some (w2, none) ∧
      w2.addSent = w1.addSent := by
  cases hA : filepath.Abs wd p with
  | mk a err =>
    rw [hA] at habs hnew hos
    simp only at habs hnew hos
    subst habs
    have hmem : a ∈ mapSet w.watchset a := by simp [mapSet, hnew]
    refine ⟨{ w with watchset := mapSet w.watchset a, locked := false,
                      addSent := w.addSent ++ [a] },
            { w with watchset := mapSet w.watchset a, locked := true,
                      addSent := w.addSent ++ [a] }, ?_, rfl, hmem, ?_, rfl⟩
    · simp [Watcher.AddWatch, hA, hlock, hnew, hos]
    · simp [Watcher.AddWatch, hA, hmem]

/-- The same at a concrete input: `/nope` on a fresh watcher. -/
theorem addWatch_failure_returns_error_witness :
    ∃ w1 w2, MakeWatcher.AddWatch (.ok "/".toList) (fun _ => some .ErrInvalid) "/nope".toList
        = some (w1, some .ErrInvalid) ∧
      w1.addSent = MakeWatcher.addSent ++ [(filepath.Abs (.ok "/".toList) "/nope".toList).1] ∧
      (filepath.Abs (.ok "/".toList) "/nope".toList).1 ∈ w1.watchset ∧
      w1.AddWatch (.ok "/".toList) (fun _ => some .ErrInvalid) "/nope".toList = some (w2, none) ∧
      w2.addSent = w1.addSent :=
  addWatch_failure_returns_error MakeWatcher (.ok "/".toList) (fun _ => some .ErrInvalid)
    (fun _ => some .ErrInvalid) "/nope".toList .ErrInvalid rfl (by decide) (by decide) rfl

/-! ## The shutdown token -/

/-- C9. Before any `Kill` the signal `Dying()` is not ready. The first `Kill`
returns without fault and makes it ready; every later `Kill`, whatever its
reason, returns without fault and leaves the token as it is (nothing logged,
the closed channel not closed again), so after any further sequence of `Kill`
calls the token is still the one left by the first and `Dying()` is ready. -/
theorem kill_is_effective_once (reason : GoError) (later : List GoError) :
    NewShutdown.Dying.recvReady = false ∧
    ∃ s1, NewShutdown.Kill reason = .ok s1 ∧ s1.Dying.recvReady = true ∧
      s1.logged = [reason] ∧
      (∀ r, s1.Kill r = .ok s1) ∧ s1.killAll later = .ok s1 := by
  refine ⟨rfl, { done := { queued := 0, cap := 1, closed := true }, logged := [reason] },
    rfl, rfl, rfl, fun r => rfl, ?_⟩
  induction later with
  | nil => rfl
  | cons r rs ih => exact ih

end watch

end Edgo

namespace Edgo

/-! ## The journal line handler -/

/-- C6, the claim as written fails, both ways, with the filter `Docked`: a
line whose decoded event name is empty is published although the empty name is
not in the filter; and a line whose decoded event name is `Docked` is dropped,
because the bytes of the event key first occur as a value and the name found
after them, `event`, is not in the filter. -/
theorem journalLineHandler_filter_is_not_membership :
    (watcherWith ["Docked".toList]).journalLineHandler exampleUnmarshal .send [] emptyEventLine
      = .ok ([[("event".toList, .string [])]], none) ∧
    GetEventName (.json [("event".toList, .string [])]) = .ok [] ∧
    ([] : GoString) ∉ ["Docked".toList] ∧
    (watcherWith ["Docked".toList]).journalLineHandler exampleUnmarshal .send [] eventValueLine
      = .ok ([], none) ∧
    exampleUnmarshal eventValueLine
      = .ok [("x".toList, .string "event".toList), ("event".toList, .string "Docked".toList)] ∧
    GetEventName (.json [("x".toList, .string "event".toList),
      ("event".toList, .string "Docked".toList)]) = .ok "Docked".toList := by
  refine ⟨by decide, by decide, by decide, by decide, by decide, by decide⟩

/-- The handler, when its `select` takes the send, case by case. With an
empty filter the line is published if and only if it decodes. With a non-empty
filter, for a line on which `GetEventNameByte` returns a name: the line is
dropped when that name is not empty and not in the filter, and when it does not
decode; otherwise, when `GetEventName` returns the name of the decoded record,
the line is published if and only if this name is empty or in the filter. -/
theorem journalLineHandler_cases (ew : EliteWatcher)
    (unmarshal : GoString → Except GoError Json) (journals : List Json) (l : GoString) :
    (ew.EventFilter = [] →
      (∀ c, unmarshal l = .ok c →
        ew.journalLineHandler unmarshal .send journals l = .ok (journals ++ [c], none)) ∧
      (∀ e, unmarshal l = .error e →
        ew.journalLineHandler unmarshal .send journals l = .ok (journals, none))) ∧
    (ew.EventFilter ≠ [] → ∀ sniffed, GetEventNameByte l = .ok sniffed →
      ((sniffed ≠ [] ∧ sniffed ∉ ew.EventFilter) →
        ew.journalLineHandler unmarshal .send journals l = .ok (journals, none)) ∧
      (∀ e, unmarshal l = .error e →
        ew.journalLineHandler unmarshal .send journals l = .ok (journals, none)) ∧
      (∀ c name, (sniffed = [] ∨ sniffed ∈ ew.EventFilter) → unmarshal l = .ok c →
        GetEventName (.json c) = .ok name →
        ((name = [] ∨ name ∈ ew.EventFilter) →
          ew.journalLineHandler unmarshal .send journals l = .ok (journals ++ [c], none)) ∧
        (¬ (name = [] ∨ name ∈ ew.EventFilter) →
          ew.journalLineHandler unmarshal .send journals l = .ok (journals, none)))) := by
  constructor
  · intro hF
    constructor
    · intro c hc
      simp [EliteWatcher.journalLineHandler, hF, ParseJournalLine, hc]
    · intro e he
      simp [EliteWatcher.journalLineHandler, hF, ParseJournalLine, he]
  · intro hF sniffed hs
    have hlen : ew.EventFilter.length > 0 := List.length_pos.mpr hF
    refine ⟨?_, ?_, ?_⟩
    · rintro ⟨h1, h2⟩
      simp [EliteWatcher.journalLineHandler, hlen, hs, EliteWatcher.filteredOut, h1, h2]
    · intro e he
      by_cases hout : ew.filteredOut sniffed = true
      · simp [EliteWatcher.journalLineHandler, hlen, hs, hout]
      · simp [EliteWatcher.journalLineHandler, hlen, hs, hout, ParseJournalLine, he]
    · intro c name hsn hc hn
      have hout : ew.filteredOut sniffed = false := by
        rcases hsn with h | h <;> simp [EliteWatcher.filteredOut, h]
      constructor
      · intro hname
        have hout2 : ew.filteredOut name = false := by
          rcases hname with h | h <;> simp [EliteWatcher.filteredOut, h]
        simp [EliteWatcher.journalLineHandler, hlen, hs, hout, ParseJournalLine, hc, hn, hout2]
      · intro hname
        have hout2 : ew.filteredOut name = true := by
          simp only [not_or] at hname
          simp [EliteWatcher.filteredOut, hname.1, hname.2]
        simp [EliteWatcher.journalLineHandler, hlen, hs, hout, ParseJournalLine, hc, hn, hout2]

/-- C6, amended. The handler of `tailJournalFile`, when its `select` takes the
send. With an empty filter, a line is published if and only if it decodes. With
a non-empty filter, for a line on which `GetEventNameByte` returns a name: a
line that does not decode is dropped; and a line that decodes to a record whose
event name `GetEventName` returns, the name found in the bytes being empty or
that same name, is published if and only if the event name is empty or a key of
the filter. -/
theorem journalLineHandler_publishes (ew : EliteWatcher)
    (unmarshal : GoString → Except GoError Json) (journals : List Json) (l : GoString) :
    (ew.EventFilter = [] →
      (∀ c, unmarshal l = .ok c →
        ew.journalLineHandler unmarshal .send journals l = .ok (journals ++ [c], none)) ∧
      (∀ e, unmarshal l = .error e →
        ew.journalLineHandler unmarshal .send journals l = .ok (journals, none))) ∧
    (ew.EventFilter ≠ [] → ∀ sniffed, GetEventNameByte l = .ok sniffed →
      (∀ e, unmarshal l = .error e →
        ew.journalLineHandler unmarshal .send journals l = .ok (journals, none)) ∧
      (∀ c name, unmarshal l = .ok c → GetEventName (.json c) = .ok name →
        (sniffed = [] ∨ sniffed = name) →
        ((name = [] ∨ name ∈ ew.EventFilter) →
          ew.journalLineHandler unmarshal .send journals l = .ok (journals ++ [c], none)) ∧
        (¬ (name = [] ∨ name ∈ ew.EventFilter) →
          ew.journalLineHandler unmarshal .send journals l = .ok (journals, none)))) := by
  obtain ⟨hempty, hfilter⟩ := journalLineHandler_cases ew unmarshal journals l
  refine ⟨hempty, fun hF sniffed hs => ?_⟩
  obtain ⟨hdrop, herr, hok⟩ := hfilter hF sniffed hs
  refine ⟨herr, fun c name hc hn hagree => ⟨fun hname => ?_, fun hname => ?_⟩⟩
  · have hsn : sniffed = [] ∨ sniffed ∈ ew.EventFilter := by
      rcases hagree with h | h
      · exact Or.inl h
      · rcases hname with h' | h'
        · exact Or.inl (h.trans h')
        · exact Or.inr (h ▸ h')
    exact (hok c name hsn hc hn).1 hname
  · rcases hagree with h | h
    · exact (hok c name (Or.inl h) hc hn).2 hname
    · simp only [not_or] at hname
      exact hdrop ⟨h ▸ hname.1, h ▸ hname.2⟩

/-- C6 at the line of the scenario: with an empty filter the handler publishes
exactly one record, whose event name is `FSDJump`; with the filter `Docked` it
publishes none. -/
theorem journalLineHandler_publishes_witness :
    (watcherWith []).journalLineHandler exampleUnmarshal .send [] fsdJumpLine
      = .ok ([] ++ [[("timestamp".toList, .string "2023-01-01T00:00:00Z".toList),
                     ("event".toList, .string "FSDJump".toList)]], none) ∧
    GetEventName (.json [("timestamp".toList, .string "2023-01-01T00:00:00Z".toList),
      ("event".toList, .string "FSDJump".toList)]) = .ok "FSDJump".toList ∧
    (watcherWith ["Docked".toList]).journalLineHandler exampleUnmarshal .send [] fsdJumpLine
      = .ok ([], none) :=
  ⟨((journalLineHandler_publishes (watcherWith []) exampleUnmarshal [] fsdJumpLine).1 rfl).1 _
      (by decide),
    by decide,
    (((journalLineHandler_publishes (watcherWith ["Docked".toList]) exampleUnmarshal []
      fsdJumpLine).2 (by decide) "FSDJump".toList (by decide)).2
        [("timestamp".toList, .string "2023-01-01T00:00:00Z".toList),
         ("event".toList, .string "FSDJump".toList)] "FSDJump".toList
        (by decide) (by decide) (Or.inr rfl)).2 (by decide)⟩

/-- C7, the code at two lines it can be handed, with the filter `Docked`: on
a line that holds the bytes of the event key and no double quote after them,
`GetEventNameByte` indexes past the end of the split and the handler panics; on
a JSON object without an event field the type assertion of `GetEventName`
fails and the handler panics. Neither line is dropped with a `nil` result. -/
theorem journalLineHandler_panics_on_malformed_line :
    GetEventNameByte bareKeyLine = .error .indexRange ∧
    (watcherWith ["Docked".toList]).journalLineHandler exampleUnmarshal .send [] bareKeyLine
      = .error .indexRange ∧
    GetEventNameByte "xx\"event\"".toList = .error .sliceBounds ∧
    exampleUnmarshal noEventLine = .ok [("a".toList, .other)] ∧
    GetEventName (.json [("a".toList, .other)]) = .error .typeAssert ∧
    (watcherWith ["Docked".toList]).journalLineHandler exampleUnmarshal .send [] noEventLine
      = .error .typeAssert := by
  refine ⟨by decide, by decide, by decide, by decide, by decide, by decide⟩

/-! ## The rotating journal names -/

/-- C8, the code at a name that is not of the form the claim gives: the base
name `journal.1.2xlog` has no `.log` extension, yet `journalRE` matches it, its
last dot standing for any character. -/
theorem journalRE_accepts_name_without_extension :
    journalRE.MatchString (strings.ToLower (filepath.Base "journal.1.2xlog".toList)) = true ∧
    specRotatingName (filepath.Base "journal.1.2xlog".toList) = false ∧
    journalRE.MatchString (strings.ToLower (filepath.Base "Journal.12.01.log".toList)) = true ∧
    specRotatingName (filepath.Base "Journal.12.01.log".toList) = true := by
  decide

/-- C10, the code at a listing with names of mixed case: of `Journal.12.02.log`
and `journal.12.01.log`, both matching the pattern, the scan selects
`journal.12.01.log`, because `sort.Strings` puts the capital first, although
`Journal.12.02.log` compares greater under the ordering of
`maybeSetJournalFile`, which accepts it as a later candidate. -/
theorem setupInitialJournalFile_not_greatest_on_mixed_case :
    ((watcherWith []).setupInitialJournalFile
        (.ok ["Journal.12.02.log".toList, "journal.12.01.log".toList])
        (.ok "/".toList) allFiles).1.selectedBase = some "journal.12.01.log".toList ∧
    journalRE.MatchString (strings.ToLower (filepath.Base "Journal.12.02.log".toList)) = true ∧
    strings.Compare (strings.ToLower (filepath.Base "journal.12.01.log".toList))
      (strings.ToLower (filepath.Base "Journal.12.02.log".toList)) = -1 ∧
    (((watcherWith []).setupInitialJournalFile
        (.ok ["Journal.12.02.log".toList, "journal.12.01.log".toList])
        (.ok "/".toList) allFiles).1.maybeSetJournalFile allFiles
          "/d/Journal.12.02.log".toList).selectedBase = some "journal.12.02.log".toList := by
  decide

/-- The scenario of the specification: with `journal.12.01.log` and
`journal.12.02.log` present, the scan selects `journal.12.02.log`; with no
matching entry, or a listing that fails, no file is selected. -/
theorem setupInitialJournalFile_scenario :
    ((watcherWith []).setupInitialJournalFile
        (.ok ["journal.12.01.log".toList, "journal.12.02.log".toList])
        (.ok "/".toList) allFiles).1.selectedBase = some "journal.12.02.log".toList ∧
    ((watcherWith []).setupInitialJournalFile (.ok ["status.json".toList])
        (.ok "/".toList) allFiles).1.tail = none ∧
    ((watcherWith []).setupInitialJournalFile (.error .ErrInvalid)
        (.ok "/".toList) allFiles).1.tail = none := by
  decide

end Edgo

namespace Edgo

namespace watch

/-! ## End of stream with an unterminated remainder -/

/-- C11. A tail whose buffer holds the bytes of the file just before the raw
offset of its handle, and whose unread bytes (the buffered ones, then the rest
of the file) end in a non-empty remainder without newline. One `ProcessLines`
call with a handler that returns no error: hands the handler the complete lines
of the unread bytes, which leave out the remainder; returns `io.EOF`, the
result of a call that has caught up, and no other error; leaves the handle of
the file, short of the end, at the offset where the remainder starts, with an
empty buffer; and when the unread bytes hold no newline that offset is the raw
offset minus the number of buffered bytes. -/
theorem processLines_rewinds_to_remainder {σ : Type} (content : GoString)
    (g : σ → GoString → σ) (t : Tail) (h : σ) (f : File) (r : bufio.Reader)
    (hfile : t.file = some f) (hreader : t.reader = some r) (hsize : 0 < r.size)
    (hbuf : r.buf.length ≤ f.pos) (hpos : f.pos ≤ content.length)
    (hwin : r.buf ++ content.drop f.pos = content.drop (f.pos - r.buf.length))
    (hrem : remainder (r.buf ++ content.drop f.pos) ≠ []) :
    ∃ t', t.ProcessLines content (fun s l => .ok (g s l, none)) h
        = .ok (t', (completeLines (r.buf ++ content.drop f.pos)).foldl g h, .EOF) ∧
      (completeLines (r.buf ++ content.drop f.pos)).flatten
          ++ remainder (r.buf ++ content.drop f.pos) = r.buf ++ content.drop f.pos ∧
      t'.file = some { f with pos := content.length
          - (remainder (r.buf ++ content.drop f.pos)).length } ∧
      content.length - (remainder (r.buf ++ content.drop f.pos)).length < content.length ∧
      content.drop (content.length - (remainder (r.buf ++ content.drop f.pos)).length)
          = remainder (r.buf ++ content.drop f.pos) ∧
      t'.reader = some { buf := [], size := r.size } ∧
      ('\n' ∉ r.buf ++ content.drop f.pos →
        content.length - (remainder (r.buf ++ content.drop f.pos)).length
          = f.pos - r.Buffered) := by
  obtain ⟨t', ht, _, hf', hr'⟩ := processLinesLoop_spec content g (t.unread content + 1) t h f r
    hfile hreader hsize hbuf hpos hwin
    (by simp only [Tail.unread, hfile, hreader, bufio.Reader.Buffered]; omega)
  rw [← hwin] at ht hf'
  have hdecomp := flatten_completeLines (r.buf ++ content.drop f.pos)
  have hlenU : (r.buf ++ content.drop f.pos).length
      = content.length - (f.pos - r.buf.length) := by
    rw [hwin, List.length_drop]
  have hlen := congrArg List.length hdecomp
  rw [List.length_append, hlenU] at hlen
  have hrempos : 0 < (remainder (r.buf ++ content.drop f.pos)).length :=
    List.length_pos.mpr hrem
  have hstart : content.length - (remainder (r.buf ++ content.drop f.pos)).length
      = (f.pos - r.buf.length)
        + (completeLines (r.buf ++ content.drop f.pos)).flatten.length := by omega
  refine ⟨t', ?_, hdecomp, hf', by omega, ?_, hr', ?_⟩
  · simpa [Tail.ProcessLines] using ht
  · rw [hstart, ← List.drop_drop, ← hwin]
    have hk := List.drop_left (completeLines (r.buf ++ content.drop f.pos)).flatten
      (remainder (r.buf ++ content.drop f.pos))
    rw [hdecomp] at hk
    exact hk
  · intro hnl
    have hr : remainder (r.buf ++ content.drop f.pos) = r.buf ++ content.drop f.pos := by
      simpa [remainder] using remainderFrom_of_not_mem [] hnl
    rw [hr, hlenU]
    simp only [bufio.Reader.Buffered]
    omega

/-- C11 at a concrete input: a tail just opened on a file that holds `ab`,
a newline and `cd`. -/
theorem processLines_rewinds_to_remainder_witness :
    ∃ t', (Tail.opened "j.log".toList).ProcessLines "ab\ncd".toList
        (fun (s : List GoString) l => .ok (s ++ [l], none)) []
        = .ok (t', (completeLines (bufio.NewReader.buf ++ "ab\ncd".toList.drop 0)).foldl
            (fun s l => s ++ [l]) [], .EOF) ∧
      (completeLines (bufio.NewReader.buf ++ "ab\ncd".toList.drop 0)).flatten
          ++ remainder (bufio.NewReader.buf ++ "ab\ncd".toList.drop 0)
          = bufio.NewReader.buf ++ "ab\ncd".toList.drop 0 ∧
      t'.file = some { name := filepath.Clean "j.log".toList, pos := "ab\ncd".toList.length
          - (remainder (bufio.NewReader.buf ++ "ab\ncd".toList.drop 0)).length } ∧
      "ab\ncd".toList.length
          - (remainder (bufio.NewReader.buf ++ "ab\ncd".toList.drop 0)).length
        < "ab\ncd".toList.length ∧
      "ab\ncd".toList.drop ("ab\ncd".toList.length
          - (remainder (bufio.NewReader.buf ++ "ab\ncd".toList.drop 0)).length)
        = remainder (bufio.NewReader.buf ++ "ab\ncd".toList.drop 0) ∧
      t'.reader = some { buf := [], size := bufio.NewReader.size } ∧
      ('\n' ∉ bufio.NewReader.buf ++ "ab\ncd".toList.drop 0 →
        "ab\ncd".toList.length
            - (remainder (bufio.NewReader.buf ++ "ab\ncd".toList.drop 0)).length
          = 0 - bufio.NewReader.Buffered) :=
  processLines_rewinds_to_remainder "ab\ncd".toList (fun s l => s ++ [l])
    (Tail.opened "j.log".toList) [] { name := filepath.Clean "j.log".toList, pos := 0 }
    bufio.NewReader rfl rfl (by decide) (by decide) (by decide) (by decide) (by decide)

/-- The same call, evaluated: the line `ab` is handed over, `cd` is not, the
result is `io.EOF` and the handle stands at offset 3, where `cd` starts. -/
theorem processLines_rewinds_example :
    (Tail.opened "j.log".toList).ProcessLines "ab\ncd".toList
        (fun (s : List GoString) l => .ok (s ++ [l], none)) []
      = .ok ({ Filename := "j.log".toList,
               file := some { name := "j.log".toList, pos := 3 },
               reader := some { buf := [], size := 4096 },
               lastPos := 5 }, ["ab\n".toList], .EOF) := by
  decide

end watch

end Edgo

namespace Edgo

namespace watch

/-! ## The registration lock -/

/-- `AddWatch` from a free lock: the call returns, and it returns with the
lock held exactly when the path is already in the set. -/
theorem addWatch_lock_after (w : Watcher) (wd : Except GoError GoString)
    (osAdd : GoString → Option GoError) (p : GoString) (hlock : w.locked = false) :
    ∃ w' e, w.AddWatch wd osAdd p = some (w', e) ∧
      (w'.locked = true ↔
        ((filepath.Abs wd p).2 = none ∧ (filepath.Abs wd p).1 ∈ w.watchset)) := by
  cases hA : filepath.Abs wd p with
  | mk a err =>
    cases err with
    | some e => exact ⟨w, some e, by simp [Watcher.AddWatch, hA], by simp [hlock]⟩
    | none =>
      by_cases hmem : a ∈ w.watchset
      · exact ⟨{ w with locked := true }, none,
          by simp [Watcher.AddWatch, hA, hlock, hmem], by simp [hmem]⟩
      · exact ⟨{ w with watchset := mapSet w.watchset a, locked := false,
                        addSent := w.addSent ++ [a] }, osAdd a,
          by simp [Watcher.AddWatch, hA, hlock, hmem], by simp [hmem]⟩

/-- `RemoveWatch` from a free lock: the call returns, and it returns with the
lock held exactly when the path is not in the set. -/
theorem removeWatch_lock_after (w : Watcher) (wd : Except GoError GoString)
    (osRemove : GoString → Option GoError) (p : GoString) (hlock : w.locked = false) :
    ∃ w' e, w.RemoveWatch wd osRemove p = some (w', e) ∧
      (w'.locked = true ↔
        ((filepath.Abs wd p).2 = none ∧ (filepath.Abs wd p).1 ∉ w.watchset)) := by
  cases hA : filepath.Abs wd p with
  | mk a err =>
    cases err with
    | some e => exact ⟨w, some e, by simp [Watcher.RemoveWatch, hA], by simp [hlock]⟩
    | none =>
      by_cases hmem : a ∈ w.watchset
      · exact ⟨{ w with watchset := mapDelete w.watchset a, locked := false,
                        removeSent := w.removeSent ++ [a] }, osRemove a,
          by simp [Watcher.RemoveWatch, hA, hlock, hmem], by simp [hmem]⟩
      · exact ⟨{ w with locked := true }, none,
          by simp [Watcher.RemoveWatch, hA, hlock, hmem], by simp [hmem]⟩

/-- C12, the code on its two early returns. On a fresh watcher, whose lock is
free: `AddWatch` of `/d` returns with the lock free, a second `AddWatch` of
`/d` returns `nil` with the lock held, and after it neither an `AddWatch` of
another path nor a round of `RunLoop` gets the lock; `RemoveWatch` of a path
that is not registered returns `nil` with the lock held as well. -/
theorem addWatch_early_return_keeps_lock :
    MakeWatcher.locked = false ∧
    MakeWatcher.AddWatch (.ok "/".toList) (fun _ => none) "/d".toList
      = some ({ watchset := ["/d".toList], locked := false, addSent := ["/d".toList],
                removeSent := [] }, none) ∧
    ({ watchset := ["/d".toList], locked := false, addSent := ["/d".toList],
       removeSent := [] } : Watcher).AddWatch (.ok "/".toList) (fun _ => none) "/d".toList
      = some ({ watchset := ["/d".toList], locked := true, addSent := ["/d".toList],
                removeSent := [] }, none) ∧
    ({ watchset := ["/d".toList], locked := true, addSent := ["/d".toList],
       removeSent := [] } : Watcher).AddWatch (.ok "/".toList) (fun _ => none) "/e".toList
      = none ∧
    ({ watchset := ["/d".toList], locked := true, addSent := ["/d".toList],
       removeSent := [] } : Watcher).runLoopEvent (.ok "/".toList) "/d/j.log".toList
        fsnotify.Write = none ∧
    MakeWatcher.RemoveWatch (.ok "/".toList) (fun _ => none) "/d".toList
      = some ({ watchset := [], locked := true, addSent := [], removeSent := [] }, none) := by
  refine ⟨by decide, by decide, by decide, by decide, by decide, by decide⟩

end watch

/-! ## The tail held by the orchestrator -/

/-- `maybeSetJournalFile` from no tail or an open one: afterwards the
orchestrator holds no tail or an open one, unless it held a tail `t`, the
candidate compares greater and cannot be opened; it then holds `t`, closed. -/
theorem maybeSetJournalFile_tail_after (ew : EliteWatcher) (canOpen : GoString → Bool)
    (q : GoString) (husable : ew.tailUsable = true) :
    (ew.maybeSetJournalFile canOpen q).tailUsable = true ∨
    ∃ t, ew.tail = some t ∧
      strings.Compare (strings.ToLower (filepath.Base t.Filename))
        (strings.ToLower (filepath.Base q)) < 0 ∧
      canOpen (filepath.Clean q) = false ∧
      (ew.maybeSetJournalFile canOpen q).tail = some t.Close := by
  cases ht : ew.tail with
  | none =>
    left
    by_cases ho : canOpen (filepath.Clean q) = true
    · simp [EliteWatcher.maybeSetJournalFile, ht, EliteWatcher.openJournal, watch.TailFile, ho,
        EliteWatcher.tailUsable, watch.Tail.isOpen, watch.Tail.opened]
    · simp [EliteWatcher.maybeSetJournalFile, ht, EliteWatcher.openJournal, watch.TailFile, ho,
        EliteWatcher.tailUsable]
  | some t =>
    by_cases hc : strings.Compare (strings.ToLower (filepath.Base t.Filename))
        (strings.ToLower (filepath.Base q)) ≥ 0
    · left
      have : ew.maybeSetJournalFile canOpen q = ew := by
        simp only [EliteWatcher.maybeSetJournalFile, ht]
        rw [if_pos hc]
      rw [this]; exact husable
    · by_cases ho : canOpen (filepath.Clean q) = true
      · left
        simp only [EliteWatcher.maybeSetJournalFile, ht]
        rw [if_neg hc]
        simp [EliteWatcher.openJournal, watch.TailFile, ho, EliteWatcher.tailUsable,
          watch.Tail.isOpen, watch.Tail.opened]
      · right
        refine ⟨t, rfl, by omega, by simpa using ho, ?_⟩
        simp only [EliteWatcher.maybeSetJournalFile, ht]
        rw [if_neg hc]
        simp [EliteWatcher.openJournal, watch.TailFile, ho]

/-- C13, the code when the open fails. The orchestrator tails the open file
`/d/journal.12.01.log`; the candidate `/d/journal.12.02.log` compares greater
and cannot be opened. After `maybeSetJournalFile` the orchestrator holds the
old tail, closed: its file handle is nil. `tailJournalFile` then publishes
nothing from a journal line that it publishes with the tail open. -/
theorem maybeSetJournalFile_keeps_closed_tail :
    (watcherOn "/d/journal.12.01.log".toList).tailUsable = true ∧
    ((watcherOn "/d/journal.12.01.log".toList).maybeSetJournalFile noFiles
        "/d/journal.12.02.log".toList).tail
      = some { Filename := "/d/journal.12.01.log".toList, file := none, reader := none,
               lastPos := 0 } ∧
    ((watcherOn "/d/journal.12.01.log".toList).maybeSetJournalFile noFiles
        "/d/journal.12.02.log".toList).tailUsable = false ∧
    ((watcherOn "/d/journal.12.01.log".toList).tailJournalFile fsdJumpLine exampleUnmarshal
        .send []).map (fun r => r.2.length) = .ok 1 ∧
    (((watcherOn "/d/journal.12.01.log".toList).maybeSetJournalFile noFiles
        "/d/journal.12.02.log".toList).tailJournalFile fsdJumpLine exampleUnmarshal
        .send []).map (fun r => r.2.length) = .ok 0 := by
  refine ⟨by decide, by decide, by decide, by decide, by decide⟩

end Edgo

namespace Edgo

/-! ## The journal selection over the candidates that the callers pass -/

/-- A name whose lower-cased base name matches `journalRE` is not empty. -/
theorem ne_nil_of_journalRE (q : GoString)
    (h : journalRE.MatchString (strings.ToLower (filepath.Base q)) = true) : q ≠ [] := by
  intro hq
  subst hq
  revert h
  decide

/-- A candidate that the callers pass is a cleaned path. -/
theorem passedCandidate_clean (q : GoString) (h : EliteWatcher.passedCandidate q) :
    filepath.Clean q = q := by
  obtain ⟨hne, wd, x, hx⟩ := h
  rw [hx] at hne ⊢
  exact filepath.Abs_clean wd x hne

/-- C2. With a current journal `t`, for every candidate `q`:
`maybeSetJournalFile` returns the orchestrator unchanged (same tail, not
closed) when the lower-cased base name of `q` is equal or lesser than that of
`t`, and the selected file name changes only if that of `q` is strictly
greater. Hence over any sequence of candidates, each as the callers pass it (a
non-empty result of `filepath.Abs`), the lower-cased base name of the selection
never decreases. -/
theorem maybeSetJournalFile_only_advances (ew : EliteWatcher) (t : watch.Tail)
    (canOpen : GoString → Bool) (q : GoString) (ht : ew.tail = some t) :
    (strings.Compare (strings.ToLower (filepath.Base t.Filename))
        (strings.ToLower (filepath.Base q)) ≥ 0 →
      ew.maybeSetJournalFile canOpen q = ew) ∧
    ((ew.maybeSetJournalFile canOpen q).tail.map (fun t' => t'.Filename) ≠ some t.Filename →
      strings.Compare (strings.ToLower (filepath.Base t.Filename))
        (strings.ToLower (filepath.Base q)) < 0) ∧
    (∀ steps : List ((GoString → Bool) × GoString),
      (∀ s ∈ steps, EliteWatcher.passedCandidate s.2) →
      ∃ t', (ew.maybeSetAll steps).tail = some t' ∧
        strings.Compare (strings.ToLower (filepath.Base t.Filename))
          (strings.ToLower (filepath.Base t'.Filename)) ≤ 0) := by
  have hrej : strings.Compare (strings.ToLower (filepath.Base t.Filename))
        (strings.ToLower (filepath.Base q)) ≥ 0 →
      ew.maybeSetJournalFile canOpen q = ew := by
    intro h
    simp only [EliteWatcher.maybeSetJournalFile, ht]
    rw [if_pos h]
  refine ⟨hrej, ?_, fun steps hpassed => maybeSetAll_monotone steps ew t ht
    (fun s hs => passedCandidate_clean s.2 (hpassed s hs))⟩
  intro hne
  by_contra hc
  rw [hrej (by omega), ht] at hne
  exact hne rfl

/-- C2 at a concrete input: from `/d/journal.12.01.log` the candidates
`/d/journal.12.02.log` and then `/d/journal.12.01.log`, both results of
`filepath.Abs`, leave a selection whose base name is not less than the first. -/
theorem maybeSetJournalFile_only_advances_witness :
    ∃ t', ((watcherOn "/d/journal.12.01.log".toList).maybeSetAll
        [(allFiles, "/d/journal.12.02.log".toList),
         (allFiles, "/d/journal.12.01.log".toList)]).tail = some t' ∧
      strings.Compare
        (strings.ToLower (filepath.Base (watch.Tail.opened "/d/journal.12.01.log".toList).Filename))
        (strings.ToLower (filepath.Base t'.Filename)) ≤ 0 :=
  (maybeSetJournalFile_only_advances (watcherOn "/d/journal.12.01.log".toList)
    (watch.Tail.opened "/d/journal.12.01.log".toList) allFiles [] rfl).2.2
    [(allFiles, "/d/journal.12.02.log".toList), (allFiles, "/d/journal.12.01.log".toList)]
    (by
      intro s hs
      simp only [List.mem_cons, List.mem_singleton, List.not_mem_nil, or_false] at hs
      rcases hs with rfl | rfl
      · exact ⟨by decide, .ok "/".toList, "/d/journal.12.02.log".toList, by decide⟩
      · exact ⟨by decide, .ok "/".toList, "d/journal.12.01.log".toList, by decide⟩)

/-- The selection of the scenario, evaluated: the startup scan selects
`journal.12.02.log`, and a later candidate `/d/journal.12.01.log` leaves the
orchestrator as it is. -/
theorem maybeSetJournalFile_scenario :
    (((watcherWith []).setupInitialJournalFile
        (.ok ["journal.12.01.log".toList, "journal.12.02.log".toList])
        (.ok "/".toList) allFiles).1.maybeSetJournalFile allFiles
          "/d/journal.12.01.log".toList)
      = ((watcherWith []).setupInitialJournalFile
        (.ok ["journal.12.01.log".toList, "journal.12.02.log".toList])
        (.ok "/".toList) allFiles).1 := by
  decide

end Edgo
